import Mathlib

/-!
Verification of the envcraft `.env`-file toolkit: a shallow embedding of the
line parser (`src/parser.rs`), canonical formatter (`src/format.rs`),
semantic differ (`src/diff.rs`) and schema validator (`src/schema.rs`),
together with theorems settling the specification claims.

Strings are modelled as `List Char` (`Str`); the Rust `BTreeMap` is modelled
as an association list kept strictly sorted by key, which reproduces its
lookup, overwrite-on-insert and sorted-iteration behaviour.
-/

namespace Envcraft

/-- Strings are modelled as lists of characters. -/
abbrev Str := List Char

/-- Unicode white-space characters: the set recognized by `char::is_whitespace`,
which `str::trim` uses in the source. -/
def isWS (c : Char) : Bool :=
  c.toNat = 0x09 || c.toNat = 0x0A || c.toNat = 0x0B || c.toNat = 0x0C ||
  c.toNat = 0x0D || c.toNat = 0x20 || c.toNat = 0x85 || c.toNat = 0xA0 ||
  c.toNat = 0x1680 || (0x2000 ≤ c.toNat && c.toNat ≤ 0x200A) ||
  c.toNat = 0x2028 || c.toNat = 0x2029 || c.toNat = 0x202F ||
  c.toNat = 0x205F || c.toNat = 0x3000

/-- Drop leading white-space (`str::trim_start`). -/
def trimLeft (s : Str) : Str := s.dropWhile isWS

/-- Drop trailing white-space (`str::trim_end`). -/
def trimRight (s : Str) : Str := (s.reverse.dropWhile isWS).reverse

/-- Drop white-space at both ends (`str::trim`). -/
def trim (s : Str) : Str := trimRight (trimLeft s)

/-- Uppercase one character: the ASCII case of `char::to_uppercase`, identity
elsewhere (the source applies `str::to_uppercase` to keys; on ASCII keys the
two coincide character by character). -/
def upperChar (c : Char) : Char :=
  if 97 ≤ c.toNat ∧ c.toNat ≤ 122 then Char.ofNat (c.toNat - 32) else c

/-- Uppercase a string (`str::to_uppercase`, restricted to the per-character
ASCII mapping). -/
def to_uppercase (s : Str) : Str := s.map upperChar

/-- Lowercase one character (ASCII case of `char::to_lowercase`). -/
def lowerChar (c : Char) : Char :=
  if 65 ≤ c.toNat ∧ c.toNat ≤ 90 then Char.ofNat (c.toNat + 32) else c

/-- Lowercase a string (`str::to_lowercase`, ASCII per-character mapping). -/
def to_lowercase (s : Str) : Str := s.map lowerChar

/-- Split a string at every newline character; the result always has one more
segment than there are newlines. -/
def splitNl : Str → List Str
  | [] => [[]]
  | c :: cs =>
    if c = '\n' then [] :: splitNl cs
    else
      match splitNl cs with
      | [] => [[c]]
      | l :: ls => (c :: l) :: ls

/-- Remove one trailing carriage return, if present. -/
def stripCR (s : Str) : Str := if s.getLast? = some '\r' then s.dropLast else s

/-- Finish `str::lines`: every segment except the last was terminated by a
newline and has one trailing carriage return stripped; a final empty segment
(from a trailing newline or empty input) is dropped, and a final non-empty
segment is kept verbatim. -/
def rustLinesAux : List Str → List Str
  | [] => []
  | [l] => if l = [] then [] else [l]
  | l :: ls => stripCR l :: rustLinesAux ls

/-- The `str::lines` iterator, as a list. -/
def rustLines (s : Str) : List Str := rustLinesAux (splitNl s)

/-- Parse error (`ParseError::InvalidLine`): the 1-based line number and the
raw line content. The IO variant is out of scope. -/
structure ParseError where
  line : Nat
  content : Str
deriving DecidableEq

/-- A parsed line from a `.env` file (`EnvLine`). -/
inductive EnvLine where
  | comment (text : Str)
  | blank
  | keyValue (key : Str) (value : Str)
deriving DecidableEq

/-- Remove surrounding quotes from a value if they match (`strip_quotes`):
trim, then if the result has length at least 2 and starts and ends with the
same quote character, drop exactly the first and last characters. -/
def strip_quotes (value : Str) : Str :=
  let t := trim value
  if 2 ≤ t.length ∧
      ((t.head? = some '"' ∧ t.getLast? = some '"') ∨
       (t.head? = some '\'' ∧ t.getLast? = some '\'')) then
    (t.drop 1).dropLast
  else t

/-- Parse a single line (`parse_line`): blank if empty after trimming, comment
if the trimmed line starts with a hash, otherwise split at the first equals
sign of the original line, trimming each side, rejecting an empty key; a line
with no equals sign is invalid. -/
def parse_line (line : Str) (line_num : Nat) : Except ParseError EnvLine :=
  let trimmed := trim line
  if trimmed = [] then .ok .blank
  else if trimmed.head? = some '#' then .ok (.comment line)
  else if '=' ∈ line then
    let key := trim (line.takeWhile (· ≠ '='))
    let value := trim ((line.dropWhile (· ≠ '=')).drop 1)
    if key = [] then .error ⟨line_num, line⟩
    else .ok (.keyValue key (strip_quotes value))
  else .error ⟨line_num, line⟩

/-- Insert into the sorted association list that models `BTreeMap::insert`:
keys stay strictly sorted and an existing binding for the key is replaced. -/
def insertEntry (k v : Str) : List (Str × Str) → List (Str × Str)
  | [] => [(k, v)]
  | (k1, v1) :: rest =>
    if k < k1 then (k, v) :: (k1, v1) :: rest
    else if k = k1 then (k, v) :: rest
    else (k1, v1) :: insertEntry k v rest

/-- Lookup in the association list modelling `BTreeMap::get`. -/
def lookupEntry (k : Str) : List (Str × Str) → Option Str
  | [] => none
  | (k1, v1) :: rest => if k = k1 then some v1 else lookupEntry k rest

/-- A fully parsed `.env` file (`EnvFile`): all lines in order plus the
key-value lookup map. -/
structure EnvFile where
  lines : List EnvLine
  entries : List (Str × Str)
deriving DecidableEq

/-- Build the lookup map by inserting every key-value line in order
(later lines overwrite earlier ones, as in the parse loop). -/
def buildEntries (ls : List EnvLine) : List (Str × Str) :=
  ls.foldl
    (fun m l =>
      match l with
      | .keyValue k v => insertEntry k v m
      | _ => m) []

/-- Parse all lines with 1-based numbering, stopping at the first error. -/
def parseAll : List Str → Nat → Except ParseError (List EnvLine)
  | [], _ => .ok []
  | l :: rest, n =>
    match parse_line l n with
    | .error e => .error e
    | .ok pl =>
      match parseAll rest (n + 1) with
      | .error e => .error e
      | .ok pls => .ok (pl :: pls)

/-- Parse a `.env` file from a string (`EnvFile::from_str`). The source builds
the map inside the same loop that collects the lines; collecting first and
folding the insertions afterwards is the same computation. -/
def EnvFile.from_str (content : Str) : Except ParseError EnvFile :=
  match parseAll (rustLines content) 1 with
  | .error e => .error e
  | .ok ls => .ok ⟨ls, buildEntries ls⟩

/-- A formatted key-value entry (`FormattedEntry`). -/
structure FormattedEntry where
  key : Str
  original_key : Str
  value : Str
  preceding_comments : List Str
deriving DecidableEq

/-- State of the formatter's first pass (its local mutable variables). -/
structure FmtState where
  entries : List FormattedEntry
  current_comments : List Str
  header_comments : List Str
  seen_first_entry : Bool
deriving DecidableEq

/-- One step of the formatter's first pass over a line: comments and blanks
are bucketed into the header block or the pending comment block (a blank is
recorded as an empty string), and a key-value line captures the pending block
into a new entry with uppercased key and trimmed value. -/
def fmtStep (st : FmtState) : EnvLine → FmtState
  | .comment t =>
    if st.seen_first_entry then
      { st with current_comments := st.current_comments ++ [t] }
    else
      { st with header_comments := st.header_comments ++ [t] }
  | .blank =>
    if st.seen_first_entry then
      { st with current_comments := st.current_comments ++ [[]] }
    else
      { st with header_comments := st.header_comments ++ [[]] }
  | .keyValue k v =>
    { entries := st.entries ++ [⟨to_uppercase k, k, trim v, st.current_comments⟩],
      current_comments := [],
      header_comments := st.header_comments,
      seen_first_entry := true }

/-- The formatter's first pass over all lines. -/
def collectFmt (ls : List EnvLine) : FmtState := ls.foldl fmtStep ⟨[], [], [], false⟩

/-- Comparison used to sort formatted entries: by uppercased key only, the
comparator of the source's `sort_by`. -/
def feLE (a b : FormattedEntry) : Prop := a.key ≤ b.key

instance : DecidableRel feLE := fun a b => inferInstanceAs (Decidable (a.key ≤ b.key))

instance : IsTotal FormattedEntry feLE := ⟨fun a b => le_total a.key b.key⟩

instance : IsTrans FormattedEntry feLE := ⟨fun _ _ _ h h2 => le_trans h h2⟩

/-- Sort the entries by uppercased key. The source uses the standard stable
sort with comparator `a.key.cmp(&b.key)`; a stable sort by a total preorder
has a unique result, so stable insertion sort computes the same list. -/
def sortEntries (es : List FormattedEntry) : List FormattedEntry :=
  List.insertionSort feLE es

/-- Render a comment/blank block: each stored line followed by a newline. -/
def renderBlock (ss : List Str) : Str := ss.flatMap (fun t => t ++ ['\n'])

/-- Render one sorted entry: its comment block, then `KEY=value` and a
newline. -/
def renderEntry (e : FormattedEntry) : Str :=
  renderBlock e.preceding_comments ++ e.key ++ '=' :: e.value ++ ['\n']

/-- Format an env file and return the formatted content (`format_env`). -/
def format_env (env : EnvFile) : Str :=
  renderBlock (collectFmt env.lines).header_comments
    ++ (sortEntries (collectFmt env.lines).entries).flatMap renderEntry
    ++ renderBlock (collectFmt env.lines).current_comments

/-- A single difference entry (`DiffEntry`). -/
inductive DiffEntry where
  | added (key value : Str)
  | removed (key value : Str)
  | changed (key old_value new_value : Str)
deriving DecidableEq

/-- The key of a difference entry (`DiffEntry::key`). -/
def DiffEntry.key : DiffEntry → Str
  | .added k _ => k
  | .removed k _ => k
  | .changed k _ _ => k

/-- Comparison used to sort diff entries: by key. -/
def deLE (a b : DiffEntry) : Prop := a.key ≤ b.key

instance : DecidableRel deLE := fun a b => inferInstanceAs (Decidable (a.key ≤ b.key))

instance : IsTotal DiffEntry deLE := ⟨fun a b => le_total a.key b.key⟩

instance : IsTrans DiffEntry deLE := ⟨fun _ _ _ h h2 => le_trans h h2⟩

/-- Sort diff entries by key (the source's stable `sort_by` on keys). -/
def sortDiff (es : List DiffEntry) : List DiffEntry := List.insertionSort deLE es

/-- Compare two env files (`diff`): removed keys (in the first only), added
keys (in the second only), changed keys (in both, values differing), then
sort by key. Iterating a `BTreeSet` difference or intersection in ascending
order is filtering the sorted key list of the map. -/
def diff (file1 file2 : EnvFile) : List DiffEntry :=
  let keys1 := file1.entries.map Prod.fst
  let keys2 := file2.entries.map Prod.fst
  let removed := (keys1.filter (fun k => !keys2.contains k)).map
    (fun k => DiffEntry.removed k ((lookupEntry k file1.entries).getD []))
  let added := (keys2.filter (fun k => !keys1.contains k)).map
    (fun k => DiffEntry.added k ((lookupEntry k file2.entries).getD []))
  let changed := (keys1.filter (fun k => keys2.contains k)).filterMap
    (fun k =>
      let v1 := (lookupEntry k file1.entries).getD []
      let v2 := (lookupEntry k file2.entries).getD []
      if v1 ≠ v2 then some (DiffEntry.changed k v1 v2) else none)
  sortDiff (removed ++ added ++ changed)

/-- Supported value types in a schema (`ValueType`). -/
inductive ValueType where
  | string
  | int
  | bool
deriving DecidableEq

instance : Inhabited ValueType := ⟨ValueType.string⟩

/-- Lower bound of `i64`. -/
def i64Min : Int := -(2 ^ 63)

/-- Upper bound of `i64`. -/
def i64Max : Int := 2 ^ 63 - 1

/-- Whether an integer fits in `i64`. -/
def inI64 (n : Int) : Bool := i64Min ≤ n ∧ n ≤ i64Max

/-- Decimal value of a digit character (`char::to_digit(10)`). -/
def digitVal (c : Char) : Option Int :=
  if 48 ≤ c.toNat ∧ c.toNat ≤ 57 then some ((c.toNat : Int) - 48) else none

/-- One step of the checked accumulation in `i64::from_str_radix`: reject a
non-digit, multiply the accumulator by ten and add (for positive numbers) or
subtract (for negative numbers) the digit, failing on overflow. -/
def i64Step (neg : Bool) (acc : Int) (c : Char) : Option Int := do
  let d ← digitVal c
  let x := acc * 10
  if inI64 x then
    let y := if neg then x - d else x + d
    if inI64 y then some y else none
  else none

/-- Parse a signed 64-bit integer (`str::parse::<i64>`, i.e.
`i64::from_str`): an optional leading plus or minus sign, then at least one
decimal digit, accumulated with overflow checking. -/
def parseI64 (s : Str) : Option Int :=
  match s with
  | [] => none
  | c :: rest =>
    let digits := if c = '+' ∨ c = '-' then rest else c :: rest
    if digits = [] then none
    else digits.foldlM (i64Step (c = '-')) (0 : Int)

/-- Validate a value against a type (`ValueType::validate`): strings always
pass, ints must parse as `i64`, bools must lowercase to `true` or `false`. -/
def ValueType.validate : ValueType → Str → Bool
  | .string, _ => true
  | .int, v => (parseI64 v).isSome
  | .bool, v => to_lowercase v == "true".toList || to_lowercase v == "false".toList

/-- A parsed schema (`Schema`): map from key names to expected types,
modelled like `EnvFile.entries` as a strictly sorted association list. -/
structure Schema where
  fields : List (Str × ValueType)
deriving DecidableEq

/-- Lookup in the schema field map (`BTreeMap::get` / `contains_key`). -/
def lookupVT (k : Str) : List (Str × ValueType) → Option ValueType
  | [] => none
  | (k1, t) :: rest => if k = k1 then some t else lookupVT k rest

/-- Result of validating an env file against a schema
(`ValidationResult`). -/
structure ValidationResult where
  missing : List Str
  extra : List Str
  type_errors : List (Str × ValueType × Str)
deriving DecidableEq

/-- Comparison for sorting plain key lists. -/
def strLE (a b : Str) : Prop := a ≤ b

instance : DecidableRel strLE := fun a b => inferInstanceAs (Decidable (a ≤ b))

instance : IsTotal Str strLE := ⟨fun a b => le_total a b⟩

instance : IsTrans Str strLE := ⟨fun _ _ _ h h2 => le_trans h h2⟩

/-- Comparison for sorting type errors: by key (the first component). -/
def teLE (a b : Str × ValueType × Str) : Prop := a.1 ≤ b.1

instance : DecidableRel teLE := fun a b => inferInstanceAs (Decidable (a.1 ≤ b.1))

instance : IsTotal (Str × ValueType × Str) teLE := ⟨fun a b => le_total a.1 b.1⟩

instance : IsTrans (Str × ValueType × Str) teLE := ⟨fun _ _ _ h h2 => le_trans h h2⟩

/-- Validate an env file against a schema (`validate`): one pass over the
schema fields collecting missing keys and type errors, one pass over the env
keys collecting extra keys, then each list is sorted. The source pushes to
`missing` and `type_errors` inside a single loop; two filtering passes over
the same sorted field list collect the same lists. -/
def validate (schema : Schema) (env : EnvFile) : ValidationResult :=
  let missing :=
    (schema.fields.filter (fun f => (lookupEntry f.1 env.entries).isNone)).map Prod.fst
  let type_errors := schema.fields.filterMap
    (fun f =>
      match lookupEntry f.1 env.entries with
      | some v => if f.2.validate v = false then some (f.1, f.2, v) else none
      | none => none)
  let extra :=
    (env.entries.map Prod.fst).filter (fun k => (lookupVT k schema.fields).isNone)
  ⟨List.insertionSort strLE missing,
   List.insertionSort strLE extra,
   List.insertionSort teLE type_errors⟩

/-! Basic facts about `dropWhile`, `rdropWhile` and trimming. -/

theorem dropWhile_idempotent (p : α → Bool) (l : List α) :
    List.dropWhile p (List.dropWhile p l) = List.dropWhile p l := by
  induction l with
  | nil => simp
  | cons a l ih =>
    by_cases hpa : p a
    · simpa [List.dropWhile_cons_of_pos hpa] using ih
    · simp [List.dropWhile_cons_of_neg hpa, hpa]

theorem dropWhile_head?_not (p : α → Bool) (l : List α) {x : α}
    (h : (List.dropWhile p l).head? = some x) : p x = false := by
  induction l with
  | nil => simp at h
  | cons a l ih =>
    by_cases hpa : p a
    · rw [List.dropWhile_cons_of_pos hpa] at h; exact ih h
    · rw [List.dropWhile_cons_of_neg hpa] at h
      simp at h
      subst h
      simpa using hpa

theorem rdropWhile_cons [DecidableEq α] (p : α → Bool) (a : α) (l : List α) :
    List.rdropWhile p (a :: l) =
      if List.rdropWhile p l = [] then (if p a then [] else [a])
      else a :: List.rdropWhile p l := by
  simp only [List.rdropWhile]
  rw [show (a :: l).reverse = l.reverse ++ [a] by simp]
  rw [List.dropWhile_append]
  by_cases h : List.dropWhile p l.reverse = []
  · simp only [h, List.isEmpty_nil, if_true, List.reverse_eq_nil_iff, List.reverse_nil]
    by_cases hpa : p a <;> simp [List.dropWhile, hpa]
  · have h2 : ¬ (List.dropWhile p l.reverse).reverse = [] := by simpa using h
    simp only [List.isEmpty_iff, h, if_false, List.reverse_append, List.reverse_cons,
      List.reverse_nil, List.nil_append, h2]
    simp

theorem dropWhile_rdropWhile_comm [DecidableEq α] (p : α → Bool) (l : List α) :
    List.rdropWhile p (List.dropWhile p l) = List.dropWhile p (List.rdropWhile p l) := by
  induction l with
  | nil => simp [List.rdropWhile]
  | cons a l ih =>
    by_cases hpa : p a
    · rw [List.dropWhile_cons_of_pos hpa, rdropWhile_cons]
      by_cases h : List.rdropWhile p l = []
      · rw [if_pos h, if_pos hpa, ih, h]
      · rw [if_neg h, List.dropWhile_cons_of_pos hpa, ih]
    · rw [List.dropWhile_cons_of_neg hpa, rdropWhile_cons]
      by_cases h : List.rdropWhile p l = []
      · rw [if_pos h, if_neg hpa]
        simp [List.dropWhile_cons_of_neg hpa]
      · rw [if_neg h, List.dropWhile_cons_of_neg hpa]

theorem trimRight_eq_rdropWhile (s : Str) : trimRight s = List.rdropWhile isWS s := rfl

theorem trim_comm (s : Str) : trim s = trimLeft (trimRight s) := by
  simp only [trim, trimLeft, trimRight_eq_rdropWhile]
  exact dropWhile_rdropWhile_comm isWS s

theorem trimLeft_trimLeft (s : Str) : trimLeft (trimLeft s) = trimLeft s :=
  dropWhile_idempotent isWS s

theorem trimRight_trimRight (s : Str) : trimRight (trimRight s) = trimRight s := by
  simp only [trimRight_eq_rdropWhile]
  exact List.rdropWhile_idempotent _ _

theorem trim_trim (s : Str) : trim (trim s) = trim s := by
  have h1 : trimLeft (trim s) = trim s := by
    rw [trim_comm]
    exact trimLeft_trimLeft _
  calc trim (trim s) = trimRight (trimLeft (trim s)) := rfl
    _ = trimRight (trim s) := by rw [h1]
    _ = trimRight (trimRight (trimLeft s)) := rfl
    _ = trimRight (trimLeft s) := trimRight_trimRight _
    _ = trim s := rfl

theorem trim_head?_not_ws {s : Str} {c : Char} (h : (trim s).head? = some c) :
    isWS c = false := by
  have hpre : trim s <+: trimLeft s := by
    rw [trim, trimRight_eq_rdropWhile]
    exact List.rdropWhile_prefix isWS (trimLeft s)
  obtain ⟨t, ht⟩ := hpre
  have : (trimLeft s).head? = some c := by
    rw [← ht, List.head?_append, h]
    rfl
  exact dropWhile_head?_not isWS s this

theorem rdropWhile_getLast?_not (p : α → Bool) (l : List α) {x : α}
    (h : (List.rdropWhile p l).getLast? = some x) : p x = false := by
  apply dropWhile_head?_not p l.reverse
  rw [← List.getLast?_reverse]
  simpa [List.rdropWhile] using h

theorem trim_getLast?_not_ws {s : Str} {c : Char} (h : (trim s).getLast? = some c) :
    isWS c = false := by
  apply rdropWhile_getLast?_not isWS (trimLeft s)
  rwa [trim, trimRight_eq_rdropWhile] at h

theorem trim_eq_self {s : Str} (h1 : ∀ c, s.head? = some c → isWS c = false)
    (h2 : ∀ c, s.getLast? = some c → isWS c = false) : trim s = s := by
  have hl : trimLeft s = s := by
    cases s with
    | nil => rfl
    | cons a l =>
      have ha := h1 a rfl
      simp only [trimLeft]
      rw [List.dropWhile_cons_of_neg (by simp [ha])]
  have hr : trimRight s = s := by
    rw [trimRight_eq_rdropWhile, List.rdropWhile_eq_self_iff]
    intro hne
    have := h2 (s.getLast hne) (by rw [List.getLast?_eq_getLast _ hne])
    simp [this]
  rw [trim, hl, hr]

theorem trimLeft_of_trim_eq {s : Str} (h : trim s = s) : trimLeft s = s := by
  have hsuf : trimLeft s <:+ s := List.dropWhile_suffix isWS
  have hpre : trim s <+: trimLeft s := by
    rw [trim, trimRight_eq_rdropWhile]
    exact List.rdropWhile_prefix isWS (trimLeft s)
  have hlen1 : (trim s).length ≤ (trimLeft s).length := hpre.length_le
  have hlen2 : (trimLeft s).length ≤ s.length := hsuf.length_le
  rw [h] at hlen1
  exact hsuf.eq_of_length (le_antisymm hlen2 hlen1)

theorem trimRight_of_trim_eq {s : Str} (h : trim s = s) : trimRight s = s := by
  have := trimLeft_of_trim_eq h
  rwa [trim, this] at h

theorem trim_head?_not_ws_self {s : Str} {c : Char} (h : trim s = s)
    (hc : s.head? = some c) : isWS c = false :=
  trim_head?_not_ws (by rwa [h])

theorem trim_getLast?_not_ws_self {s : Str} {c : Char} (h : trim s = s)
    (hc : s.getLast? = some c) : isWS c = false :=
  trim_getLast?_not_ws (by rwa [h])

theorem trim_append_ws {x : Str} {c : Char} (hc : isWS c = true) :
    trim (x ++ [c]) = trim x := by
  rw [trim_comm, trim_comm x]
  congr 1
  rw [trimRight_eq_rdropWhile, trimRight_eq_rdropWhile]
  exact List.rdropWhile_concat_pos isWS x c hc

theorem stripCR_trim (s : Str) : trim (stripCR s) = trim s := by
  unfold stripCR
  by_cases h : s.getLast? = some '\r'
  · rw [if_pos h]
    have hne : s ≠ [] := by intro hc; rw [hc] at h; simp at h
    have hs : s.dropLast ++ ['\r'] = s := by
      have := List.dropLast_append_getLast hne
      rwa [show s.getLast hne = '\r' by
        rw [List.getLast?_eq_getLast _ hne, Option.some.injEq] at h
        exact h] at this
    conv_rhs => rw [← hs]
    rw [trim_append_ws (by decide)]
  · rw [if_neg h]

/-! Facts about uppercasing. -/

theorem isWS_iff (c : Char) : isWS c = true ↔
    (c.toNat = 0x09 ∨ c.toNat = 0x0A ∨ c.toNat = 0x0B ∨ c.toNat = 0x0C ∨
     c.toNat = 0x0D ∨ c.toNat = 0x20 ∨ c.toNat = 0x85 ∨ c.toNat = 0xA0 ∨
     c.toNat = 0x1680 ∨ (0x2000 ≤ c.toNat ∧ c.toNat ≤ 0x200A) ∨
     c.toNat = 0x2028 ∨ c.toNat = 0x2029 ∨ c.toNat = 0x202F ∨
     c.toNat = 0x205F ∨ c.toNat = 0x3000) := by
  simp [isWS, Bool.or_eq_true, decide_eq_true_eq, and_assoc]
  tauto

theorem upperChar_toNat (c : Char) :
    (upperChar c).toNat =
      if 97 ≤ c.toNat ∧ c.toNat ≤ 122 then c.toNat - 32 else c.toNat := by
  unfold upperChar
  by_cases h : 97 ≤ c.toNat ∧ c.toNat ≤ 122
  · rw [if_pos h, if_pos h]
    have hv : (c.toNat - 32).isValidChar := Or.inl (by omega)
    rw [Char.ofNat, dif_pos hv]
    rfl
  · rw [if_neg h, if_neg h]

theorem upperChar_of_not_lower {c : Char} (h : ¬ (97 ≤ c.toNat ∧ c.toNat ≤ 122)) :
    upperChar c = c := by
  unfold upperChar
  rw [if_neg h]

theorem upperChar_idem (c : Char) : upperChar (upperChar c) = upperChar c := by
  by_cases h : 97 ≤ c.toNat ∧ c.toNat ≤ 122
  · have h1 : (upperChar c).toNat = c.toNat - 32 := by rw [upperChar_toNat, if_pos h]
    exact upperChar_of_not_lower (by rw [h1]; omega)
  · rw [upperChar_of_not_lower h, upperChar_of_not_lower h]

theorem isWS_upperChar (c : Char) : isWS (upperChar c) = isWS c := by
  by_cases h : 97 ≤ c.toNat ∧ c.toNat ≤ 122
  · have h1 : (upperChar c).toNat = c.toNat - 32 := by rw [upperChar_toNat, if_pos h]
    have hA : ¬ (isWS (upperChar c) = true) := by rw [isWS_iff, h1]; omega
    have hB : ¬ (isWS c = true) := by rw [isWS_iff]; omega
    simp only [Bool.not_eq_true] at hA hB
    rw [hA, hB]
  · have h1 : upperChar c = c := by unfold upperChar; rw [if_neg h]
    rw [h1]

theorem upperChar_eq_of_not_upper {c d : Char} (hd : ¬ (65 ≤ d.toNat ∧ d.toNat ≤ 90))
    (h : upperChar c = d) : c = d := by
  by_cases hc : 97 ≤ c.toNat ∧ c.toNat ≤ 122
  · exfalso
    have hb : d.toNat = c.toNat - 32 := by rw [← h, upperChar_toNat, if_pos hc]
    exact hd (by omega)
  · rwa [upperChar, if_neg hc] at h

theorem trimLeft_to_uppercase (s : Str) :
    trimLeft (to_uppercase s) = to_uppercase (trimLeft s) := by
  simp only [to_uppercase, trimLeft, List.dropWhile_map]
  rw [show (isWS ∘ upperChar) = isWS from funext isWS_upperChar]

theorem trimRight_to_uppercase (s : Str) :
    trimRight (to_uppercase s) = to_uppercase (trimRight s) := by
  simp only [to_uppercase, trimRight, ← List.map_reverse, List.dropWhile_map]
  rw [show (isWS ∘ upperChar) = isWS from funext isWS_upperChar]

theorem trim_to_uppercase (s : Str) : trim (to_uppercase s) = to_uppercase (trim s) := by
  rw [trim, trimLeft_to_uppercase, trimRight_to_uppercase, trim]

theorem to_uppercase_eq_mem {k : Str} {d : Char}
    (hd : ¬ (65 ≤ d.toNat ∧ d.toNat ≤ 90)) (h : d ∈ to_uppercase k) : d ∈ k := by
  obtain ⟨a, ha, hup⟩ := List.mem_map.mp h
  rwa [upperChar_eq_of_not_upper hd hup] at ha

theorem to_uppercase_to_uppercase (s : Str) :
    to_uppercase (to_uppercase s) = to_uppercase s := by
  simp only [to_uppercase, List.map_map]
  congr 1
  funext c
  exact upperChar_idem c

/-! Facts about the sorted association list that models `BTreeMap`. -/

/-- The `BTreeMap` invariant: keys strictly sorted (hence distinct). -/
def SortedMap (m : List (Str × Str)) : Prop := m.Pairwise (fun p q => p.1 < q.1)

theorem lookup_insertEntry (k1 k v : Str) (m : List (Str × Str)) :
    lookupEntry k1 (insertEntry k v m) =
      if k1 = k then some v else lookupEntry k1 m := by
  induction m with
  | nil => simp [insertEntry, lookupEntry]
  | cons p rest ih =>
    obtain ⟨k2, v2⟩ := p
    simp only [insertEntry]
    by_cases h1 : k < k2
    · rw [if_pos h1]
      simp only [lookupEntry]
    · rw [if_neg h1]
      by_cases h2 : k = k2
      · rw [if_pos h2]
        simp only [lookupEntry]
        by_cases h3 : k1 = k
        · rw [if_pos h3, if_pos h3]
        · rw [if_neg h3, if_neg h3, if_neg (by rw [← h2]; exact h3)]
      · rw [if_neg h2]
        simp only [lookupEntry]
        by_cases h3 : k1 = k2
        · rw [if_pos h3, if_neg (by rw [h3]; exact fun hc => h2 hc.symm), if_pos h3]
        · rw [if_neg h3, if_neg h3, ih]

theorem mem_insertEntry {x : Str × Str} {k v : Str} {m : List (Str × Str)}
    (h : x ∈ insertEntry k v m) : x = (k, v) ∨ x ∈ m := by
  induction m with
  | nil => simpa [insertEntry] using h
  | cons p rest ih =>
    obtain ⟨k2, v2⟩ := p
    simp only [insertEntry] at h
    by_cases h1 : k < k2
    · rw [if_pos h1] at h
      simpa using h
    · rw [if_neg h1] at h
      by_cases h2 : k = k2
      · rw [if_pos h2] at h
        rcases List.mem_cons.mp h with h3 | h3
        · exact Or.inl h3
        · exact Or.inr (List.mem_cons_of_mem _ h3)
      · rw [if_neg h2] at h
        rcases List.mem_cons.mp h with h3 | h3
        · exact Or.inr (List.mem_cons.mpr (Or.inl h3))
        · rcases ih h3 with h4 | h4
          · exact Or.inl h4
          · exact Or.inr (List.mem_cons_of_mem _ h4)

theorem insertEntry_sorted {k v : Str} {m : List (Str × Str)} (hm : SortedMap m) :
    SortedMap (insertEntry k v m) := by
  induction m with
  | nil => simp [insertEntry, SortedMap]
  | cons p rest ih =>
    obtain ⟨k2, v2⟩ := p
    rw [SortedMap, List.pairwise_cons] at hm
    obtain ⟨hhead, htail⟩ := hm
    simp only [insertEntry]
    by_cases h1 : k < k2
    · rw [if_pos h1]
      refine List.Pairwise.cons ?_ (List.Pairwise.cons hhead htail)
      intro x hx
      rcases List.mem_cons.mp hx with h2 | h2
      · rw [h2]; exact h1
      · exact lt_trans h1 (hhead x h2)
    · rw [if_neg h1]
      by_cases h2 : k = k2
      · rw [if_pos h2]
        refine List.Pairwise.cons ?_ htail
        intro x hx
        rw [h2]
        exact hhead x hx
      · rw [if_neg h2]
        have hk2 : k2 < k := by
          rcases lt_trichotomy k k2 with h | h | h
          · exact absurd h h1
          · exact absurd h h2
          · exact h
        refine List.Pairwise.cons ?_ (ih htail)
        intro x hx
        rcases mem_insertEntry hx with h3 | h3
        · rw [h3]; exact hk2
        · exact hhead x h3

theorem lookup_eq_none_of_forall {k : Str} {m : List (Str × Str)}
    (h : ∀ p ∈ m, p.1 ≠ k) : lookupEntry k m = none := by
  induction m with
  | nil => rfl
  | cons p rest ih =>
    obtain ⟨k1, v1⟩ := p
    simp only [lookupEntry]
    rw [if_neg (fun hc => h (k1, v1) (List.mem_cons_self _ _) (by rw [hc]))]
    exact ih (fun q hq => h q (List.mem_cons_of_mem _ hq))

theorem sortedMap_lookup_head {k1 v1 : Str} {rest : List (Str × Str)} :
    lookupEntry k1 ((k1, v1) :: rest) = some v1 := by
  simp [lookupEntry]

theorem sortedMap_ext {m1 m2 : List (Str × Str)} (h1 : SortedMap m1) (h2 : SortedMap m2)
    (h : ∀ k, lookupEntry k m1 = lookupEntry k m2) : m1 = m2 := by
  induction m1 generalizing m2 with
  | nil =>
    cases m2 with
    | nil => rfl
    | cons p rest =>
      obtain ⟨k2, v2⟩ := p
      have := h k2
      rw [sortedMap_lookup_head] at this
      simp [lookupEntry] at this
  | cons p rest1 ih =>
    obtain ⟨k1, v1⟩ := p
    cases m2 with
    | nil =>
      have := h k1
      rw [sortedMap_lookup_head] at this
      simp [lookupEntry] at this
    | cons q rest2 =>
      obtain ⟨k2, v2⟩ := q
      rw [SortedMap, List.pairwise_cons] at h1 h2
      have hkeq : k1 = k2 := by
        by_contra hne
        rcases lt_trichotomy k1 k2 with hlt | heq | hgt
        · have ha := h k1
          rw [sortedMap_lookup_head] at ha
          rw [show lookupEntry k1 ((k2, v2) :: rest2) = none from by
            apply lookup_eq_none_of_forall
            intro p hp
            rcases List.mem_cons.mp hp with hh | hh
            · rw [hh]; exact fun hc => hne hc.symm
            · intro hc
              have hx := h2.1 p hh
              rw [hc] at hx
              exact absurd hx (not_lt.mpr hlt.le)] at ha
          exact Option.noConfusion ha
        · exact hne heq
        · have ha := h k2
          rw [sortedMap_lookup_head] at ha
          rw [show lookupEntry k2 ((k1, v1) :: rest1) = none from by
            apply lookup_eq_none_of_forall
            intro p hp
            rcases List.mem_cons.mp hp with hh | hh
            · rw [hh]; exact fun hc => hne hc
            · intro hc
              have hx := h1.1 p hh
              rw [hc] at hx
              exact absurd hx (not_lt.mpr hgt.le)] at ha
          exact Option.noConfusion ha
      subst hkeq
      have hveq : v1 = v2 := by
        have := h k1
        rw [sortedMap_lookup_head, sortedMap_lookup_head] at this
        exact Option.some.injEq _ _ ▸ this
      subst hveq
      congr 1
      apply ih h1.2 h2.2
      intro k
      by_cases hk : k = k1
      · subst hk
        rw [lookup_eq_none_of_forall (fun p hp => ne_of_gt (h1.1 p hp)),
          lookup_eq_none_of_forall (fun p hp => ne_of_gt (h2.1 p hp))]
      · have := h k
        simpa only [lookupEntry, if_neg hk] using this

/-- Value of the last key-value line for a key (the last write). -/
def lastValue (k : Str) (ls : List EnvLine) : Option Str :=
  ls.foldl
    (fun acc l =>
      match l with
      | .keyValue k1 v => if k1 = k then some v else acc
      | _ => acc) none

theorem lookup_foldl_insert (k : Str) (ls : List EnvLine) (m : List (Str × Str)) :
    lookupEntry k
        (ls.foldl
          (fun m l =>
            match l with
            | .keyValue k1 v => insertEntry k1 v m
            | _ => m) m) =
      ls.foldl
        (fun acc l =>
          match l with
          | .keyValue k1 v => if k1 = k then some v else acc
          | _ => acc) (lookupEntry k m) := by
  induction ls generalizing m with
  | nil => rfl
  | cons l rest ih =>
    cases l with
    | keyValue k1 v =>
      simp only [List.foldl_cons]
      rw [ih]
      congr 1
      rw [lookup_insertEntry]
      by_cases hk : k = k1
      · rw [if_pos hk, if_pos (hk.symm)]
      · rw [if_neg hk, if_neg (fun hc => hk hc.symm)]
    | comment t => simpa using ih m
    | blank => simpa using ih m

theorem lookup_buildEntries (k : Str) (ls : List EnvLine) :
    lookupEntry k (buildEntries ls) = lastValue k ls := by
  rw [buildEntries, lastValue, lookup_foldl_insert]
  rfl

theorem buildEntries_sorted (ls : List EnvLine) : SortedMap (buildEntries ls) := by
  rw [buildEntries]
  generalize hm : ([] : List (Str × Str)) = m
  have hsm : SortedMap m := by rw [← hm]; exact List.Pairwise.nil
  clear hm
  induction ls generalizing m with
  | nil => exact hsm
  | cons l rest ih =>
    cases l with
    | keyValue k1 v => exact ih _ (insertEntry_sorted hsm)
    | comment t => exact ih _ hsm
    | blank => exact ih _ hsm

theorem lookup_some_iff_mem {k v : Str} {m : List (Str × Str)} (hm : SortedMap m) :
    lookupEntry k m = some v ↔ (k, v) ∈ m := by
  induction m with
  | nil => simp [lookupEntry]
  | cons p rest ih =>
    obtain ⟨k1, v1⟩ := p
    rw [SortedMap, List.pairwise_cons] at hm
    simp only [lookupEntry]
    by_cases hk : k = k1
    · subst hk
      rw [if_pos rfl]
      constructor
      · intro h
        exact List.mem_cons.mpr (Or.inl (by
          injection h with h
          rw [h]))
      · intro h
        rcases List.mem_cons.mp h with h2 | h2
        · injection h2 with ha hb
          rw [hb]
        · exact absurd rfl (ne_of_gt (hm.1 (k, v) h2))
    · rw [if_neg hk, ih hm.2]
      constructor
      · exact fun h => List.mem_cons_of_mem _ h
      · intro h
        rcases List.mem_cons.mp h with h2 | h2
        · injection h2 with ha hb
          exact absurd ha hk
        · exact h2

theorem lookup_isSome_iff_mem_keys {k : Str} {m : List (Str × Str)} :
    (lookupEntry k m).isSome = true ↔ k ∈ m.map Prod.fst := by
  induction m with
  | nil => simp [lookupEntry]
  | cons p rest ih =>
    obtain ⟨k1, v1⟩ := p
    simp only [lookupEntry, List.map_cons, List.mem_cons]
    by_cases hk : k = k1
    · simp [hk]
    · rw [if_neg hk, ih]
      simp [hk]

/-! Characterization of parse errors. -/

/-- A line the parser rejects: not blank, not a comment, and either containing
no equals sign or having an empty trimmed key before the first one. -/
def badLine (l : Str) : Prop :=
  trim l ≠ [] ∧ (trim l).head? ≠ some '#' ∧
    ('=' ∉ l ∨ trim (l.takeWhile (· ≠ '=')) = [])

instance : DecidablePred badLine := fun l => by unfold badLine; infer_instance

theorem parse_line_error_of_bad {l : Str} {n : Nat} (h : badLine l) :
    parse_line l n = .error ⟨n, l⟩ := by
  obtain ⟨h1, h2, h3⟩ := h
  simp only [parse_line]
  rw [if_neg h1, if_neg h2]
  by_cases he : '=' ∈ l
  · rw [if_pos he]
    rcases h3 with h3 | h3
    · exact absurd he h3
    · rw [if_pos h3]
  · rw [if_neg he]

theorem parse_line_ok_of_not_bad {l : Str} {n : Nat} (h : ¬ badLine l) :
    ∃ pl, parse_line l n = .ok pl := by
  unfold badLine at h
  push_neg at h
  simp only [parse_line]
  by_cases h1 : trim l = []
  · exact ⟨.blank, by rw [if_pos h1]⟩
  · rw [if_neg h1]
    by_cases h2 : (trim l).head? = some '#'
    · exact ⟨.comment l, by rw [if_pos h2]⟩
    · rw [if_neg h2]
      have h3 := h h1 h2
      rw [if_pos h3.1, if_neg h3.2]
      exact ⟨_, rfl⟩

theorem parse_line_error_iff {l : Str} {n : Nat} {e : ParseError} :
    parse_line l n = .error e ↔ badLine l ∧ e = ⟨n, l⟩ := by
  constructor
  · intro h
    by_cases hb : badLine l
    · refine ⟨hb, ?_⟩
      rw [parse_line_error_of_bad hb] at h
      injection h with h
      exact h.symm
    · obtain ⟨pl, hpl⟩ := parse_line_ok_of_not_bad (n := n) hb
      rw [hpl] at h
      exact Except.noConfusion h
  · rintro ⟨hb, rfl⟩
    exact parse_line_error_of_bad hb

theorem parseAll_error_iff (L : List Str) (n : Nat) (err : ParseError) :
    parseAll L n = .error err ↔
      ∃ i v, L[i]? = some v ∧ badLine v ∧ err = ⟨n + i, v⟩ ∧
        ∀ j w, j < i → L[j]? = some w → ¬ badLine w := by
  induction L generalizing n with
  | nil =>
    simp only [parseAll]
    constructor
    · intro h; exact Except.noConfusion h
    · rintro ⟨i, v, hv, _⟩
      simp at hv
  | cons l rest ih =>
    simp only [parseAll]
    by_cases hb : badLine l
    · rw [parse_line_error_of_bad hb]
      constructor
      · intro h
        injection h with h
        exact ⟨0, l, by simp, hb, by rw [← h]; simp, by intro j w hj; omega⟩
      · rintro ⟨i, v, hv, hvb, rfl, hfirst⟩
        cases i with
        | zero =>
          simp at hv
          subst hv
          rfl
        | succ i =>
          exact absurd hb (hfirst 0 l (Nat.succ_pos i) (by simp))
    · obtain ⟨pl, hpl⟩ := parse_line_ok_of_not_bad (n := n) hb
      rw [hpl]
      have hrec := ih (n + 1)
      constructor
      · intro h
        have herr : parseAll rest (n + 1) = .error err := by
          cases hpa : parseAll rest (n + 1) with
          | error e => rw [hpa] at h; injection h with h; rw [h]
          | ok pls => rw [hpa] at h; exact Except.noConfusion h
        obtain ⟨i, v, hv, hvb, heq, hfirst⟩ := hrec.mp herr
        refine ⟨i + 1, v, by simpa using hv, hvb, by rw [heq]; congr 1; omega, ?_⟩
        intro j w hj hw
        cases j with
        | zero =>
          simp at hw
          subst hw
          exact hb
        | succ j =>
          exact hfirst j w (by omega) (by simpa using hw)
      · rintro ⟨i, v, hv, hvb, rfl, hfirst⟩
        cases i with
        | zero =>
          simp at hv
          subst hv
          exact absurd hvb hb
        | succ i =>
          have herr : parseAll rest (n + 1) = .error ⟨n + (i + 1), v⟩ := by
            rw [hrec]
            refine ⟨i, v, by simpa using hv, hvb, by congr 1; omega, ?_⟩
            intro j w hj hw
            exact hfirst (j + 1) w (by omega) (by simpa using hw)
          rw [herr]

/-- C8: `EnvFile::from_str` fails with `InvalidLine` carrying the 1-based
line number and the raw line content if and only if some input line is
neither blank nor a comment and either contains no equals sign or has an
empty trimmed key before the first one; the reported error is exactly the
first such malformed line, which aborts the whole parse (the `Except` result
carries no partial `EnvFile`). -/
theorem C8_invalid_line_iff (content : Str) (err : ParseError) :
    EnvFile.from_str content = .error err ↔
      ∃ i v, (rustLines content)[i]? = some v ∧ badLine v ∧ err = ⟨i + 1, v⟩ ∧
        ∀ j w, j < i → (rustLines content)[j]? = some w → ¬ badLine w := by
  have hfrom : EnvFile.from_str content = .error err ↔
      parseAll (rustLines content) 1 = .error err := by
    unfold EnvFile.from_str
    cases h : parseAll (rustLines content) 1 <;> simp
  rw [hfrom, parseAll_error_iff]
  constructor <;> rintro ⟨i, v, hv, hb, he, hf⟩ <;>
    exact ⟨i, v, hv, hb, by rw [he]; congr 1; omega, hf⟩

/-! Characterization of i64 parsing. -/

/-- Decimal digit test, used to phrase the specification's grammar. -/
def isAsciiDigit (c : Char) : Bool := 48 ≤ c.toNat ∧ c.toNat ≤ 57

/-- Decimal value of a digit string starting from an accumulator. -/
def valFromPos (acc : Int) (d : Str) : Int :=
  d.foldl (fun a c => a * 10 + ((c.toNat : Int) - 48)) acc

/-- Negated accumulation: multiply by ten and subtract each digit. -/
def valFromNeg (acc : Int) (d : Str) : Int :=
  d.foldl (fun a c => a * 10 - ((c.toNat : Int) - 48)) acc

/-- Decimal value of a digit string. -/
def digitsVal (d : Str) : Int := valFromPos 0 d

/-- Signed value described by the specification's grammar. -/
def signedVal (neg : Bool) (d : Str) : Int :=
  if neg then -digitsVal d else digitsVal d

/-- Modelled from the specification's amended sentence for the Int kind: an
optional leading plus or minus sign, then at least one decimal digit and
nothing else (hence no surrounding whitespace and no separators), whose
signed value fits in the signed 64-bit range. -/
def I64Lit (v : Str) : Prop :=
  ∃ (neg : Bool) (d : Str),
    ((neg = false ∧ (v = d ∨ v = '+' :: d)) ∨ (neg = true ∧ v = '-' :: d)) ∧
    d ≠ [] ∧ (∀ c ∈ d, isAsciiDigit c = true) ∧
    i64Min ≤ signedVal neg d ∧ signedVal neg d ≤ i64Max

theorem inI64_iff (n : Int) : inI64 n = true ↔ (i64Min ≤ n ∧ n ≤ i64Max) := by
  simp [inI64]

theorem digitVal_of_digit {c : Char} (h : isAsciiDigit c = true) :
    digitVal c = some ((c.toNat : Int) - 48) := by
  simp only [isAsciiDigit, decide_eq_true_eq] at h
  simp [digitVal, h]

theorem digitVal_of_not_digit {c : Char} (h : isAsciiDigit c = false) :
    digitVal c = none := by
  simp only [isAsciiDigit] at h
  rw [decide_eq_false_iff_not] at h
  simp [digitVal, h]

theorem valFromPos_ge {d : Str} {acc : Int} (h0 : 0 ≤ acc)
    (hd : ∀ c ∈ d, isAsciiDigit c = true) : acc ≤ valFromPos acc d := by
  induction d generalizing acc with
  | nil => exact le_refl acc
  | cons c rest ih =>
    have hc := hd c (List.mem_cons_self _ _)
    simp only [isAsciiDigit, decide_eq_true_eq] at hc
    have hstep : acc ≤ acc * 10 + ((c.toNat : Int) - 48) := by omega
    have h0' : (0 : Int) ≤ acc * 10 + ((c.toNat : Int) - 48) := by omega
    calc acc ≤ acc * 10 + ((c.toNat : Int) - 48) := hstep
      _ ≤ valFromPos (acc * 10 + ((c.toNat : Int) - 48)) rest :=
        ih h0' (fun x hx => hd x (List.mem_cons_of_mem _ hx))
      _ = valFromPos acc (c :: rest) := rfl

theorem valFromNeg_le {d : Str} {acc : Int} (h0 : acc ≤ 0)
    (hd : ∀ c ∈ d, isAsciiDigit c = true) : valFromNeg acc d ≤ acc := by
  induction d generalizing acc with
  | nil => exact le_refl acc
  | cons c rest ih =>
    have hc := hd c (List.mem_cons_self _ _)
    simp only [isAsciiDigit, decide_eq_true_eq] at hc
    have hstep : acc * 10 - ((c.toNat : Int) - 48) ≤ acc := by omega
    have h0' : acc * 10 - ((c.toNat : Int) - 48) ≤ 0 := by omega
    calc valFromNeg acc (c :: rest)
        = valFromNeg (acc * 10 - ((c.toNat : Int) - 48)) rest := rfl
      _ ≤ acc * 10 - ((c.toNat : Int) - 48) :=
        ih h0' (fun x hx => hd x (List.mem_cons_of_mem _ hx))
      _ ≤ acc := hstep

theorem valFromNeg_neg (d : Str) (b : Int) : valFromNeg (-b) d = -(valFromPos b d) := by
  induction d generalizing b with
  | nil => rfl
  | cons c rest ih =>
    show valFromNeg (-b * 10 - ((c.toNat : Int) - 48)) rest = _
    rw [show -b * 10 - ((c.toNat : Int) - 48) = -(b * 10 + ((c.toNat : Int) - 48)) by ring,
      ih]
    rfl

theorem foldlM_i64Step_pos (d : Str) (acc : Int) (h0 : 0 ≤ acc) (hM : acc ≤ i64Max) :
    d.foldlM (i64Step false) acc =
      if (∀ c ∈ d, isAsciiDigit c = true) ∧ valFromPos acc d ≤ i64Max
      then some (valFromPos acc d) else none := by
  induction d generalizing acc with
  | nil =>
    rw [List.foldlM_nil, if_pos ⟨by simp, hM⟩]
    rfl
  | cons c rest ih =>
    rw [List.foldlM_cons]
    by_cases hc : isAsciiDigit c = true
    · have hd0 : (0 : Int) ≤ (c.toNat : Int) - 48 ∧ ((c.toNat : Int) - 48) ≤ 9 := by
        simp only [isAsciiDigit, decide_eq_true_eq] at hc
        omega
      simp only [i64Step, digitVal_of_digit hc, Option.bind_eq_bind, Option.some_bind]
      by_cases hX : acc * 10 + ((c.toNat : Int) - 48) ≤ i64Max
      · have hx : inI64 (acc * 10) = true := by
          rw [inI64_iff]
          constructor
          · have : (0 : Int) ≤ acc * 10 := by positivity
            have : i64Min < 0 := by norm_num [i64Min]
            omega
          · omega
        have hy : inI64 (acc * 10 + ((c.toNat : Int) - 48)) = true := by
          rw [inI64_iff]
          have : i64Min < 0 := by norm_num [i64Min]
          constructor <;> omega
        rw [hx]
        simp only [if_true, Bool.false_eq_true, if_false, hy, Option.some_bind]
        rw [ih (acc * 10 + ((c.toNat : Int) - 48)) (by omega) (by omega)]
        have hval : valFromPos (acc * 10 + ((c.toNat : Int) - 48)) rest =
            valFromPos acc (c :: rest) := rfl
        rw [hval]
        by_cases hrest : (∀ x ∈ rest, isAsciiDigit x = true) ∧
            valFromPos acc (c :: rest) ≤ i64Max
        · rw [if_pos hrest, if_pos ⟨fun x hx2 => by
            rcases List.mem_cons.mp hx2 with h | h
            · rw [h]; exact hc
            · exact hrest.1 x h, hrest.2⟩]
        · rw [if_neg hrest, if_neg (fun hcon => hrest
            ⟨fun x hx2 => hcon.1 x (List.mem_cons_of_mem _ hx2), hcon.2⟩)]
      · have hbig : ¬ valFromPos acc (c :: rest) ≤ i64Max ∨
            ¬ (∀ x ∈ c :: rest, isAsciiDigit x = true) := by
          by_cases hall : ∀ x ∈ c :: rest, isAsciiDigit x = true
          · left
            intro hcon
            apply hX
            have hmono : acc * 10 + ((c.toNat : Int) - 48) ≤
                valFromPos acc (c :: rest) := by
              have := @valFromPos_ge rest
                (acc * 10 + ((c.toNat : Int) - 48)) (by omega)
                (fun x hx2 => hall x (List.mem_cons_of_mem _ hx2))
              exact this
            omega
          · right; exact hall
        by_cases hxb : inI64 (acc * 10) = true
        · rw [hxb]
          simp only [if_true]
          have hyb : inI64 (acc * 10 + ((c.toNat : Int) - 48)) = false := by
            rw [← Bool.not_eq_true, inI64_iff]
            intro hcon
            exact hX hcon.2
          simp only [Bool.false_eq_true, if_false, hyb]
          rw [if_neg (fun hcon => by
            rcases hbig with hb | hb
            · exact hb hcon.2
            · exact hb hcon.1)]
          rfl
        · rw [Bool.not_eq_true] at hxb
          rw [hxb]
          simp only [Bool.false_eq_true, if_false]
          rw [if_neg (fun hcon => by
            rcases hbig with hb | hb
            · exact hb hcon.2
            · exact hb hcon.1)]
          rfl
    · rw [Bool.not_eq_true] at hc
      simp only [i64Step, digitVal_of_not_digit hc, Option.bind_eq_bind,
        Option.none_bind]
      rw [if_neg (fun hcon => by
        have := hcon.1 c (List.mem_cons_self _ _)
        rw [this] at hc
        exact Bool.noConfusion hc)]

theorem foldlM_i64Step_neg (d : Str) (acc : Int) (h0 : acc ≤ 0) (hm : i64Min ≤ acc) :
    d.foldlM (i64Step true) acc =
      if (∀ c ∈ d, isAsciiDigit c = true) ∧ i64Min ≤ valFromNeg acc d
      then some (valFromNeg acc d) else none := by
  induction d generalizing acc with
  | nil =>
    rw [List.foldlM_nil, if_pos ⟨by simp, hm⟩]
    rfl
  | cons c rest ih =>
    rw [List.foldlM_cons]
    by_cases hc : isAsciiDigit c = true
    · have hd0 : (0 : Int) ≤ (c.toNat : Int) - 48 ∧ ((c.toNat : Int) - 48) ≤ 9 := by
        simp only [isAsciiDigit, decide_eq_true_eq] at hc
        omega
      simp only [i64Step, digitVal_of_digit hc, Option.bind_eq_bind, Option.some_bind]
      by_cases hX : i64Min ≤ acc * 10 - ((c.toNat : Int) - 48)
      · have hx : inI64 (acc * 10) = true := by
          rw [inI64_iff]
          have hup : acc * 10 ≤ 0 := by
            have := mul_nonpos_of_nonpos_of_nonneg h0 (by norm_num : (0 : Int) ≤ 10)
            omega
          have : (0 : Int) ≤ i64Max := by norm_num [i64Max]
          constructor <;> omega
        have hy : inI64 (acc * 10 - ((c.toNat : Int) - 48)) = true := by
          rw [inI64_iff]
          have hup : acc * 10 ≤ 0 := by
            have := mul_nonpos_of_nonpos_of_nonneg h0 (by norm_num : (0 : Int) ≤ 10)
            omega
          have : (0 : Int) ≤ i64Max := by norm_num [i64Max]
          constructor <;> omega
        rw [hx]
        simp only [if_true, Bool.false_eq_true, if_false, hy, Option.some_bind]
        rw [ih (acc * 10 - ((c.toNat : Int) - 48)) (by
          have := mul_nonpos_of_nonpos_of_nonneg h0 (by norm_num : (0 : Int) ≤ 10)
          omega) hX]
        have hval : valFromNeg (acc * 10 - ((c.toNat : Int) - 48)) rest =
            valFromNeg acc (c :: rest) := rfl
        rw [hval]
        by_cases hrest : (∀ x ∈ rest, isAsciiDigit x = true) ∧
            i64Min ≤ valFromNeg acc (c :: rest)
        · rw [if_pos hrest, if_pos ⟨fun x hx2 => by
            rcases List.mem_cons.mp hx2 with h | h
            · rw [h]; exact hc
            · exact hrest.1 x h, hrest.2⟩]
        · rw [if_neg hrest, if_neg (fun hcon => hrest
            ⟨fun x hx2 => hcon.1 x (List.mem_cons_of_mem _ hx2), hcon.2⟩)]
      · have hbig : ¬ i64Min ≤ valFromNeg acc (c :: rest) ∨
            ¬ (∀ x ∈ c :: rest, isAsciiDigit x = true) := by
          by_cases hall : ∀ x ∈ c :: rest, isAsciiDigit x = true
          · left
            intro hcon
            apply hX
            have hmono : valFromNeg acc (c :: rest) ≤
                acc * 10 - ((c.toNat : Int) - 48) := by
              have := @valFromNeg_le rest
                (acc * 10 - ((c.toNat : Int) - 48)) (by
                  have := mul_nonpos_of_nonpos_of_nonneg h0
                    (by norm_num : (0 : Int) ≤ 10)
                  omega)
                (fun x hx2 => hall x (List.mem_cons_of_mem _ hx2))
              exact this
            omega
          · right; exact hall
        by_cases hxb : inI64 (acc * 10) = true
        · rw [hxb]
          simp only [if_true]
          have hyb : inI64 (acc * 10 - ((c.toNat : Int) - 48)) = false := by
            rw [← Bool.not_eq_true, inI64_iff]
            intro hcon
            exact hX hcon.1
          simp only [Bool.false_eq_true, if_false, hyb]
          rw [if_neg (fun hcon => by
            rcases hbig with hb | hb
            · exact hb hcon.2
            · exact hb hcon.1)]
          rfl
        · rw [Bool.not_eq_true] at hxb
          rw [hxb]
          simp only [Bool.false_eq_true, if_false]
          rw [if_neg (fun hcon => by
            rcases hbig with hb | hb
            · exact hb hcon.2
            · exact hb hcon.1)]
          rfl
    · rw [Bool.not_eq_true] at hc
      simp only [i64Step, digitVal_of_not_digit hc, Option.bind_eq_bind,
        Option.none_bind]
      rw [if_neg (fun hcon => by
        have := hcon.1 c (List.mem_cons_self _ _)
        rw [this] at hc
        exact Bool.noConfusion hc)]

theorem digitsVal_nonneg {d : Str} (hd : ∀ c ∈ d, isAsciiDigit c = true) :
    0 ≤ digitsVal d :=
  valFromPos_ge le_rfl hd

theorem valFromNeg_zero (d : Str) : valFromNeg 0 d = -(digitsVal d) := by
  have := valFromNeg_neg d 0
  simpa using this

/-- Modelled from the frozen claim's grammar for the Int kind: an optional
leading minus sign only (no plus), at least one decimal digit, nothing else,
value in the signed 64-bit range. -/
def I64LitClaim (v : Str) : Prop :=
  ∃ (neg : Bool) (d : Str),
    ((neg = false ∧ v = d) ∨ (neg = true ∧ v = '-' :: d)) ∧
    d ≠ [] ∧ (∀ c ∈ d, isAsciiDigit c = true) ∧
    i64Min ≤ signedVal neg d ∧ signedVal neg d ≤ i64Max

/-- C5 counterexample: the string `+5` is accepted by Int validation (Rust's
`i64::from_str` allows a leading plus sign), while the claim's grammar, which
allows only an optional leading minus, rejects it. -/
theorem C5_counterexample :
    ValueType.validate ValueType.int ('+' :: '5' :: []) = true ∧
      ¬ I64LitClaim ('+' :: '5' :: []) := by
  constructor
  · decide
  · rintro ⟨neg, d, hshape, hne, hdig, -, -⟩
    rcases hshape with ⟨-, rfl⟩ | ⟨-, hshape⟩
    · have := hdig '+' (List.mem_cons_self _ _)
      exact absurd this (by decide)
    · injection hshape with h1 h2
      exact absurd h1 (by decide)

/-- C5 (amended): Int validation returns true if and only if the value is an
optional leading plus or minus sign followed by at least one decimal digit
and nothing else (no surrounding whitespace, no separators), whose signed
value fits in the signed 64-bit range; out-of-range integers yield false. -/
theorem C5_validate_int_iff (v : Str) :
    ValueType.validate ValueType.int v = true ↔ I64Lit v := by
  simp only [ValueType.validate]
  cases v with
  | nil =>
    simp only [parseI64, Option.isSome_none, Bool.false_eq_true, false_iff]
    rintro ⟨neg, d, hshape, hne, -, -, -⟩
    rcases hshape with ⟨-, hs | hs⟩ | ⟨-, hs⟩
    · exact hne hs.symm
    · exact List.noConfusion hs
    · exact List.noConfusion hs
  | cons c rest =>
    by_cases hplus : c = '+'
    · subst hplus
      have hred : parseI64 ('+' :: rest) =
          if rest = [] then none else rest.foldlM (i64Step false) (0 : Int) := by
        simp [parseI64]
      rw [hred]
      by_cases hrest : rest = []
      · rw [if_pos hrest]
        simp only [Option.isSome_none, Bool.false_eq_true, false_iff]
        rintro ⟨neg, d, hshape, hne, hdig, -, -⟩
        rcases hshape with ⟨-, hs | hs⟩ | ⟨-, hs⟩
        · subst hs
          exact absurd (hdig '+' (List.mem_cons_self _ _)) (by decide)
        · injection hs with h1 h2
          rw [hrest] at h2
          exact hne h2.symm
        · injection hs with h1 h2
          exact absurd h1 (by decide)
      · rw [if_neg hrest]
        rw [foldlM_i64Step_pos rest 0 le_rfl (by norm_num [i64Max])]
        constructor
        · intro h
          rw [Option.isSome_iff_exists] at h
          obtain ⟨x, hx⟩ := h
          by_cases hcond : (∀ c ∈ rest, isAsciiDigit c = true) ∧
              valFromPos 0 rest ≤ i64Max
          · refine ⟨false, rest, Or.inl ⟨rfl, Or.inr rfl⟩, hrest, hcond.1, ?_, ?_⟩
            · simp only [signedVal, if_neg (Bool.false_ne_true)]
              have := digitsVal_nonneg hcond.1
              have : i64Min < 0 := by norm_num [i64Min]
              omega
            · simp only [signedVal, if_neg (Bool.false_ne_true)]
              exact hcond.2
          · rw [if_neg hcond] at hx
            exact Option.noConfusion hx
        · rintro ⟨neg, d, hshape, hne, hdig, hlo, hhi⟩
          rcases hshape with ⟨hnegf, hs | hs⟩ | ⟨hnegt, hs⟩
          · subst hs
            exact absurd (hdig '+' (List.mem_cons_self _ _)) (by decide)
          · injection hs with h1 h2
            subst h2
            subst hnegf
            simp only [signedVal, if_neg (Bool.false_ne_true)] at hhi
            rw [if_pos ⟨hdig, hhi⟩]
            rfl
          · injection hs with h1 h2
            exact absurd h1 (by decide)
    · by_cases hminus : c = '-'
      · subst hminus
        have hred : parseI64 ('-' :: rest) =
            if rest = [] then none else rest.foldlM (i64Step true) (0 : Int) := by
          simp [parseI64]
        rw [hred]
        by_cases hrest : rest = []
        · rw [if_pos hrest]
          simp only [Option.isSome_none, Bool.false_eq_true, false_iff]
          rintro ⟨neg, d, hshape, hne, hdig, -, -⟩
          rcases hshape with ⟨-, hs | hs⟩ | ⟨-, hs⟩
          · subst hs
            exact absurd (hdig '-' (List.mem_cons_self _ _)) (by decide)
          · injection hs with h1 h2
            exact absurd h1 (by decide)
          · injection hs with h1 h2
            rw [hrest] at h2
            exact hne h2.symm
        · rw [if_neg hrest]
          rw [foldlM_i64Step_neg rest 0 le_rfl (by norm_num [i64Min])]
          rw [valFromNeg_zero]
          constructor
          · intro h
            rw [Option.isSome_iff_exists] at h
            obtain ⟨x, hx⟩ := h
            by_cases hcond : (∀ c ∈ rest, isAsciiDigit c = true) ∧
                i64Min ≤ -(digitsVal rest)
            · refine ⟨true, rest, Or.inr ⟨rfl, rfl⟩, hrest, hcond.1, ?_, ?_⟩
              · simp [signedVal]
                exact hcond.2
              · simp [signedVal]
                have := digitsVal_nonneg hcond.1
                have : (0 : Int) ≤ i64Max := by norm_num [i64Max]
                omega
            · rw [if_neg hcond] at hx
              exact Option.noConfusion hx
          · rintro ⟨neg, d, hshape, hne, hdig, hlo, hhi⟩
            rcases hshape with ⟨hnegf, hs | hs⟩ | ⟨hnegt, hs⟩
            · subst hs
              exact absurd (hdig '-' (List.mem_cons_self _ _)) (by decide)
            · injection hs with h1 h2
              exact absurd h1 (by decide)
            · injection hs with h1 h2
              subst h2
              subst hnegt
              simp [signedVal] at hlo
              rw [if_pos ⟨hdig, hlo⟩]
              rfl
      · have hred : parseI64 (c :: rest) =
            (c :: rest).foldlM (i64Step false) (0 : Int) := by
          simp [parseI64, hplus, hminus]
        rw [hred]
        rw [foldlM_i64Step_pos (c :: rest) 0 le_rfl (by norm_num [i64Max])]
        constructor
        · intro h
          rw [Option.isSome_iff_exists] at h
          obtain ⟨x, hx⟩ := h
          by_cases hcond : (∀ x ∈ c :: rest, isAsciiDigit x = true) ∧
              valFromPos 0 (c :: rest) ≤ i64Max
          · refine ⟨false, c :: rest, Or.inl ⟨rfl, Or.inl rfl⟩,
              List.cons_ne_nil c rest, hcond.1, ?_, ?_⟩
            · simp only [signedVal, if_neg (Bool.false_ne_true)]
              have := digitsVal_nonneg hcond.1
              have : i64Min < 0 := by norm_num [i64Min]
              omega
            · simp only [signedVal, if_neg (Bool.false_ne_true)]
              exact hcond.2
          · rw [if_neg hcond] at hx
            exact Option.noConfusion hx
        · rintro ⟨neg, d, hshape, hne, hdig, hlo, hhi⟩
          rcases hshape with ⟨hnegf, hs | hs⟩ | ⟨hnegt, hs⟩
          · subst hs
            subst hnegf
            simp only [signedVal, if_neg (Bool.false_ne_true)] at hhi
            rw [if_pos ⟨hdig, hhi⟩]
            rfl
          · injection hs with h1 h2
            exact absurd h1 hplus
          · injection hs with h1 h2
            exact absurd h1 hminus

/-! Structural description of the formatter's first pass. -/

/-- Whether a line is a key-value line. -/
def isKVLine : EnvLine → Bool
  | .keyValue _ _ => true
  | _ => false

/-- The text a comment or blank line contributes to comment blocks: the
comment's verbatim text, or the empty string for a blank. -/
def blockText : EnvLine → Str
  | .comment t => t
  | _ => []

/-- Entries and trailing block collected after the first key-value line has
been seen, `cur` being the pending comment block. -/
def bodyCollect (cur : List Str) : List EnvLine → List FormattedEntry × List Str
  | [] => ([], cur)
  | .comment t :: rest => bodyCollect (cur ++ [t]) rest
  | .blank :: rest => bodyCollect (cur ++ [[]]) rest
  | .keyValue k v :: rest =>
    (⟨to_uppercase k, k, trim v, cur⟩ :: (bodyCollect [] rest).1,
      (bodyCollect [] rest).2)

/-- Header block, entries and trailing block of a line sequence: comments and
blanks before the first key-value line form the header; each entry carries
the comment block between the previous entry and itself; a final block with
no following entry is the trailing block. -/
def headCollect (hdr : List Str) :
    List EnvLine → List Str × List FormattedEntry × List Str
  | [] => (hdr, [], [])
  | .comment t :: rest => headCollect (hdr ++ [t]) rest
  | .blank :: rest => headCollect (hdr ++ [[]]) rest
  | .keyValue k v :: rest =>
    (hdr, ⟨to_uppercase k, k, trim v, []⟩ :: (bodyCollect [] rest).1,
      (bodyCollect [] rest).2)

theorem foldl_fmtStep_seen (ls : List EnvLine) (ent : List FormattedEntry)
    (cur hdr : List Str) :
    ls.foldl fmtStep ⟨ent, cur, hdr, true⟩ =
      ⟨ent ++ (bodyCollect cur ls).1, (bodyCollect cur ls).2, hdr, true⟩ := by
  induction ls generalizing ent cur with
  | nil => simp [bodyCollect]
  | cons l rest ih =>
    cases l with
    | comment t =>
      rw [List.foldl_cons, show fmtStep ⟨ent, cur, hdr, true⟩ (.comment t) =
        ⟨ent, cur ++ [t], hdr, true⟩ from rfl, ih]
      rfl
    | blank =>
      rw [List.foldl_cons, show fmtStep ⟨ent, cur, hdr, true⟩ .blank =
        ⟨ent, cur ++ [[]], hdr, true⟩ from rfl, ih]
      rfl
    | keyValue k v =>
      rw [List.foldl_cons, show fmtStep ⟨ent, cur, hdr, true⟩ (.keyValue k v) =
        ⟨ent ++ [⟨to_uppercase k, k, trim v, cur⟩], [], hdr, true⟩ from rfl, ih]
      simp [bodyCollect]

theorem foldl_fmtStep_unseen (ls : List EnvLine) (ent : List FormattedEntry)
    (hdr : List Str) :
    ls.foldl fmtStep ⟨ent, [], hdr, false⟩ =
      ⟨ent ++ (headCollect hdr ls).2.1, (headCollect hdr ls).2.2,
        (headCollect hdr ls).1, ls.any isKVLine⟩ := by
  induction ls generalizing hdr with
  | nil => simp [headCollect]
  | cons l rest ih =>
    cases l with
    | comment t =>
      rw [List.foldl_cons, show fmtStep ⟨ent, [], hdr, false⟩ (.comment t) =
        ⟨ent, [], hdr ++ [t], false⟩ from rfl, ih]
      simp [headCollect, isKVLine]
    | blank =>
      rw [List.foldl_cons, show fmtStep ⟨ent, [], hdr, false⟩ .blank =
        ⟨ent, [], hdr ++ [[]], false⟩ from rfl, ih]
      simp [headCollect, isKVLine]
    | keyValue k v =>
      rw [List.foldl_cons, show fmtStep ⟨ent, [], hdr, false⟩ (.keyValue k v) =
        ⟨ent ++ [⟨to_uppercase k, k, trim v, []⟩], [], hdr, true⟩ from rfl,
        foldl_fmtStep_seen]
      simp [headCollect, isKVLine]

theorem collectFmt_eq (ls : List EnvLine) :
    collectFmt ls =
      ⟨(headCollect [] ls).2.1, (headCollect [] ls).2.2, (headCollect [] ls).1,
        ls.any isKVLine⟩ := by
  rw [collectFmt, foldl_fmtStep_unseen]
  rfl

theorem format_env_eq (env : EnvFile) :
    format_env env =
      renderBlock (headCollect [] env.lines).1
        ++ (sortEntries (headCollect [] env.lines).2.1).flatMap renderEntry
        ++ renderBlock (headCollect [] env.lines).2.2 := by
  rw [format_env, collectFmt_eq]

theorem headCollect_fst (hdr : List Str) (ls : List EnvLine) :
    (headCollect hdr ls).1 =
      hdr ++ (ls.takeWhile (fun l => !isKVLine l)).map blockText := by
  induction ls generalizing hdr with
  | nil => simp [headCollect]
  | cons l rest ih =>
    cases l with
    | comment t =>
      rw [show headCollect hdr (.comment t :: rest) = headCollect (hdr ++ [t]) rest
        from rfl, ih]
      rw [List.takeWhile_cons_of_pos (by simp [isKVLine])]
      simp [blockText]
    | blank =>
      rw [show headCollect hdr (.blank :: rest) = headCollect (hdr ++ [[]]) rest
        from rfl, ih]
      rw [List.takeWhile_cons_of_pos (by simp [isKVLine])]
      simp [blockText]
    | keyValue k v =>
      rw [List.takeWhile_cons_of_neg (by simp [isKVLine])]
      simp [headCollect]

theorem bodyCollect_mem_buckets {x : Str} (ls : List EnvLine) (cur : List Str)
    (h : x ∈ cur ∨ EnvLine.comment x ∈ ls) :
    x ∈ (bodyCollect cur ls).2 ∨
      ∃ fe ∈ (bodyCollect cur ls).1, x ∈ fe.preceding_comments := by
  induction ls generalizing cur with
  | nil =>
    rcases h with h | h
    · exact Or.inl h
    · simp at h
  | cons l rest ih =>
    cases l with
    | comment t =>
      rw [show bodyCollect cur (.comment t :: rest) = bodyCollect (cur ++ [t]) rest
        from rfl]
      apply ih
      rcases h with h | h
      · exact Or.inl (List.mem_append_left _ h)
      · rcases List.mem_cons.mp h with h2 | h2
        · injection h2 with h2
          exact Or.inl (List.mem_append_right _ (by rw [h2]; simp))
        · exact Or.inr h2
    | blank =>
      rw [show bodyCollect cur (.blank :: rest) = bodyCollect (cur ++ [[]]) rest
        from rfl]
      apply ih
      rcases h with h | h
      · exact Or.inl (List.mem_append_left _ h)
      · rcases List.mem_cons.mp h with h2 | h2
        · exact absurd h2 (by simp)
        · exact Or.inr h2
    | keyValue k v =>
      rw [show bodyCollect cur (.keyValue k v :: rest) =
        (⟨to_uppercase k, k, trim v, cur⟩ :: (bodyCollect [] rest).1,
          (bodyCollect [] rest).2) from rfl]
      rcases h with h | h
      · exact Or.inr ⟨⟨to_uppercase k, k, trim v, cur⟩, List.mem_cons_self _ _, h⟩
      · rcases List.mem_cons.mp h with h2 | h2
        · exact absurd h2 (by simp)
        · rcases ih [] (Or.inr h2) with h3 | ⟨fe, hfe, hx⟩
          · exact Or.inl h3
          · exact Or.inr ⟨fe, List.mem_cons_of_mem _ hfe, hx⟩

theorem headCollect_mem_buckets {x : Str} (ls : List EnvLine) (hdr : List Str)
    (h : x ∈ hdr ∨ EnvLine.comment x ∈ ls) :
    x ∈ (headCollect hdr ls).1 ∨
      (∃ fe ∈ (headCollect hdr ls).2.1, x ∈ fe.preceding_comments) ∨
      x ∈ (headCollect hdr ls).2.2 := by
  induction ls generalizing hdr with
  | nil =>
    rcases h with h | h
    · exact Or.inl h
    · simp at h
  | cons l rest ih =>
    cases l with
    | comment t =>
      rw [show headCollect hdr (.comment t :: rest) = headCollect (hdr ++ [t]) rest
        from rfl]
      apply ih
      rcases h with h | h
      · exact Or.inl (List.mem_append_left _ h)
      · rcases List.mem_cons.mp h with h2 | h2
        · injection h2 with h2
          exact Or.inl (List.mem_append_right _ (by rw [h2]; simp))
        · exact Or.inr h2
    | blank =>
      rw [show headCollect hdr (.blank :: rest) = headCollect (hdr ++ [[]]) rest
        from rfl]
      apply ih
      rcases h with h | h
      · exact Or.inl (List.mem_append_left _ h)
      · rcases List.mem_cons.mp h with h2 | h2
        · exact absurd h2 (by simp)
        · exact Or.inr h2
    | keyValue k v =>
      rw [show headCollect hdr (.keyValue k v :: rest) =
        (hdr, ⟨to_uppercase k, k, trim v, []⟩ :: (bodyCollect [] rest).1,
          (bodyCollect [] rest).2) from rfl]
      rcases h with h | h
      · exact Or.inl h
      · rcases List.mem_cons.mp h with h2 | h2
        · exact absurd h2 (by simp)
        · rcases bodyCollect_mem_buckets rest [] (Or.inr h2) with h3 | ⟨fe, hfe, hx⟩
          · exact Or.inr (Or.inr h3)
          · exact Or.inr (Or.inl ⟨fe, List.mem_cons_of_mem _ hfe, hx⟩)

/-- Parse a string, returning an empty file on error (used to build concrete
counterexample files). -/
def parseOr (s : Str) : EnvFile :=
  match EnvFile.from_str s with
  | .ok e => e
  | .error _ => ⟨[], []⟩

/-- C6 counterexample: a blank input line consisting of one space is not
reproduced byte-for-byte: the input's blank line is the string of one space,
but the formatted output contains no space character at all (the blank is
emitted as an empty line). -/
theorem C6_counterexample :
    rustLines (" \nK=1".toList) = [[' '], "K=1".toList] ∧
      format_env (parseOr (" \nK=1".toList)) = "\nK=1\n".toList ∧
      [' '] ∉ rustLines (format_env (parseOr (" \nK=1".toList))) ∧
      ' ' ∉ format_env (parseOr (" \nK=1".toList)) := by
  refine ⟨by decide, by decide, by decide, by decide⟩

/-- C6 (amended): the output of `format_env` is exactly the header block
(all comment/blank lines before the first key-value line, blanks becoming
empty lines), then each sorted entry's comment block followed by
`UPPERKEY=value` and a newline (`renderEntry`), then the trailing block; every
comment line of the input is reproduced byte-for-byte in one of the emitted
blocks, while a blank line is emitted as an empty line (its whitespace is
discarded). -/
theorem C6_output_structure (env : EnvFile) :
    format_env env =
      renderBlock ((env.lines.takeWhile (fun l => !isKVLine l)).map blockText)
        ++ (sortEntries (headCollect [] env.lines).2.1).flatMap renderEntry
        ++ renderBlock (headCollect [] env.lines).2.2 ∧
      ∀ t, EnvLine.comment t ∈ env.lines →
        t ∈ (env.lines.takeWhile (fun l => !isKVLine l)).map blockText ∨
          (∃ fe ∈ sortEntries (headCollect [] env.lines).2.1,
            t ∈ fe.preceding_comments) ∨
          t ∈ (headCollect [] env.lines).2.2 := by
  constructor
  · rw [format_env_eq, headCollect_fst]
    rfl
  · intro t ht
    have := headCollect_mem_buckets env.lines [] (Or.inr ht)
    rw [headCollect_fst] at this
    rcases this with h | ⟨fe, hfe, hx⟩ | h
    · exact Or.inl (by simpa using h)
    · refine Or.inr (Or.inl ⟨fe, ?_, hx⟩)
      exact ((List.perm_insertionSort feLE _).mem_iff).mpr hfe
    · exact Or.inr (Or.inr h)

/-! Sortedness and stability of the entry sort. -/

theorem filter_orderedInsert {α : Type} (r : α → α → Prop) [DecidableRel r]
    (p : α → Bool) (hp : ∀ x y, p x = true → p y = true → r x y) (a : α)
    (l : List α) :
    (List.orderedInsert r a l).filter p =
      if p a then a :: l.filter p else l.filter p := by
  rw [List.orderedInsert_eq_take_drop, List.filter_append]
  by_cases hpa : p a
  · rw [if_pos hpa]
    have htake : (l.takeWhile (fun b => decide ¬ r a b)).filter p = [] := by
      rw [List.filter_eq_nil_iff]
      intro y hy
      have hq := List.mem_takeWhile_imp hy
      simp only [decide_eq_true_eq] at hq
      intro hpy
      exact hq (hp a y hpa hpy)
    rw [htake]
    simp only [List.nil_append, List.filter_cons, hpa, if_pos]
    congr 1
    conv_rhs => rw [← List.takeWhile_append_dropWhile (fun b => decide ¬ r a b) l]
    rw [List.filter_append, htake, List.nil_append]
  · rw [if_neg hpa]
    simp only [List.filter_cons]
    rw [if_neg (by simpa using hpa)]
    conv_rhs => rw [← List.takeWhile_append_dropWhile (fun b => decide ¬ r a b) l]
    rw [List.filter_append]

theorem filter_insertionSort {α : Type} (r : α → α → Prop) [DecidableRel r]
    (p : α → Bool) (hp : ∀ x y, p x = true → p y = true → r x y) (l : List α) :
    (List.insertionSort r l).filter p = l.filter p := by
  induction l with
  | nil => rfl
  | cons a l ih =>
    rw [List.insertionSort, filter_orderedInsert r p hp, List.filter_cons]
    by_cases hpa : p a
    · rw [if_pos hpa, ih, if_pos (by simpa using hpa)]
    · rw [if_neg hpa, ih, if_neg (by simpa using hpa)]

/-- Modelled from the frozen claim's ordering for C7: ascending by the pair
(uppercased key, then original key). -/
def sortedByKeyThenOrig (es : List FormattedEntry) : Prop :=
  es.Pairwise (fun a b =>
    a.key < b.key ∨ (a.key = b.key ∧ a.original_key ≤ b.original_key))

instance : DecidablePred sortedByKeyThenOrig := fun es => by
  unfold sortedByKeyThenOrig
  infer_instance

/-- C7 counterexample: for the input `b=1` then `B=2`, both keys uppercase to
`B`; sorting by (uppercased key, original key) would put the entry with
original key `B` (value 2) first, but the formatter's stable sort keeps the
input order, emitting `B=1` before `B=2`. -/
theorem C7_counterexample :
    (sortEntries (collectFmt (parseOr ("b=1\nB=2".toList)).lines).entries).map
        (fun fe => (fe.key, fe.original_key, fe.value)) =
      [("B".toList, "b".toList, "1".toList),
        ("B".toList, "B".toList, "2".toList)] ∧
      ¬ sortedByKeyThenOrig
        (sortEntries (collectFmt (parseOr ("b=1\nB=2".toList)).lines).entries) ∧
      format_env (parseOr ("b=1\nB=2".toList)) = "B=1\nB=2\n".toList := by
  refine ⟨by decide, by decide, by decide⟩

/-- C7 (amended): the emitted entries are sorted ascending by uppercased key
only; when two keys uppercase to the same string, the stable sort keeps them
in original input order (which is still deterministic across runs), rather
than ordering them by original key. -/
theorem C7_sorted_by_upper_stable (env : EnvFile) :
    List.Sorted feLE (sortEntries (collectFmt env.lines).entries) ∧
      ∀ K : Str,
        (sortEntries (collectFmt env.lines).entries).filter
            (fun fe => fe.key = K) =
          (collectFmt env.lines).entries.filter (fun fe => fe.key = K) := by
  constructor
  · exact List.sorted_insertionSort feLE _
  · intro K
    apply filter_insertionSort
    intro x y hx hy
    simp only [decide_eq_true_eq] at hx hy
    show x.key ≤ y.key
    rw [hx, hy]

/-! Correspondence between emitted entries and key-value lines. -/

theorem fmtStep_entries_non_kv (st : FmtState) {l : EnvLine} (h : isKVLine l = false) :
    (fmtStep st l).entries = st.entries := by
  cases l with
  | comment t =>
    show (if st.seen_first_entry then _ else _ : FmtState).entries = _
    by_cases hs : st.seen_first_entry <;> simp [hs]
  | blank =>
    show (if st.seen_first_entry then _ else _ : FmtState).entries = _
    by_cases hs : st.seen_first_entry <;> simp [hs]
  | keyValue k v => simp [isKVLine] at h

theorem foldl_fmtStep_entries_proj (ls : List EnvLine) (st : FmtState) :
    ((ls.foldl fmtStep st).entries).map (fun fe => (fe.key, fe.original_key, fe.value)) =
      (st.entries).map (fun fe => (fe.key, fe.original_key, fe.value)) ++
        ls.filterMap
          (fun l =>
            match l with
            | EnvLine.keyValue k v => some (to_uppercase k, k, trim v)
            | _ => none) := by
  induction ls generalizing st with
  | nil => simp
  | cons l rest ih =>
    rw [List.foldl_cons, ih]
    cases l with
    | comment t =>
      rw [fmtStep_entries_non_kv st (by rfl)]
      simp [List.filterMap_cons]
    | blank =>
      rw [fmtStep_entries_non_kv st (by rfl)]
      simp [List.filterMap_cons]
    | keyValue k v =>
      rw [show fmtStep st (.keyValue k v) =
        ⟨st.entries ++ [⟨to_uppercase k, k, trim v, st.current_comments⟩], [],
          st.header_comments, true⟩ from rfl]
      simp [List.filterMap_cons]

theorem collectFmt_entries_proj (ls : List EnvLine) :
    ((collectFmt ls).entries).map (fun fe => (fe.key, fe.original_key, fe.value)) =
      ls.filterMap
        (fun l =>
          match l with
          | EnvLine.keyValue k v => some (to_uppercase k, k, trim v)
          | _ => none) := by
  rw [collectFmt, foldl_fmtStep_entries_proj]
  rfl

theorem from_str_ok_inv {content : Str} {env : EnvFile}
    (h : EnvFile.from_str content = .ok env) :
    parseAll (rustLines content) 1 = .ok env.lines ∧
      env.entries = buildEntries env.lines := by
  unfold EnvFile.from_str at h
  cases hp : parseAll (rustLines content) 1 with
  | error e =>
    rw [hp] at h
    exact Except.noConfusion h
  | ok ls =>
    rw [hp] at h
    injection h with h
    subst h
    exact ⟨rfl, rfl⟩

theorem parseAll_ok_length {L : List Str} {n : Nat} {ls : List EnvLine}
    (h : parseAll L n = .ok ls) : ls.length = L.length := by
  induction L generalizing n ls with
  | nil =>
    simp only [parseAll] at h
    injection h with h
    subst h
    rfl
  | cons l rest ih =>
    simp only [parseAll] at h
    cases hpl : parse_line l n with
    | error e => rw [hpl] at h; exact Except.noConfusion h
    | ok pl =>
      rw [hpl] at h
      cases hpa : parseAll rest (n + 1) with
      | error e => rw [hpa] at h; exact Except.noConfusion h
      | ok pls =>
        rw [hpa] at h
        injection h with h
        rw [← h]
        simp [ih hpa]

/-- C1 counterexample: for the input `K=" a "` the stored value (produced by
quote stripping) is ` a ` with its inner spaces, but `format_env` emits `a`:
the formatter trims the value again, changing it beyond the trim performed at
parse time. -/
theorem C1_counterexample :
    lookupEntry ("K".toList) (parseOr ("K=\" a \"".toList)).entries =
        some (" a ".toList) ∧
      format_env (parseOr ("K=\" a \"".toList)) = "K=a\n".toList ∧
      " a ".toList ≠ "a".toList := by
  refine ⟨by decide, by decide, by decide⟩

/-- C1 (amended): the value text emitted by `format_env` for an entry is the
trim of the value stored in the parsed representation for the corresponding
key-value line. Since parse-time values are produced by `strip_quotes`, this
second trim changes exactly those values that were produced by quote
stripping and kept leading or trailing whitespace inside the quotes; all
other values are emitted unchanged (no re-quoting, no escaping). -/
theorem C1_emitted_value_is_trim (content : Str) (env : EnvFile)
    (h : EnvFile.from_str content = .ok env) :
    ∀ fe ∈ sortEntries (collectFmt env.lines).entries,
      ∃ k v, EnvLine.keyValue k v ∈ env.lines ∧ fe.key = to_uppercase k ∧
        fe.value = trim v := by
  intro fe hfe
  have hmem : fe ∈ (collectFmt env.lines).entries :=
    ((List.perm_insertionSort feLE _).mem_iff).mp hfe
  have hproj : (fe.key, fe.original_key, fe.value) ∈
      ((collectFmt env.lines).entries).map
        (fun fe => (fe.key, fe.original_key, fe.value)) :=
    List.mem_map_of_mem _ hmem
  rw [collectFmt_entries_proj] at hproj
  obtain ⟨l, hl, hsome⟩ := List.mem_filterMap.mp hproj
  cases l with
  | comment t => simp at hsome
  | blank => simp at hsome
  | keyValue k v =>
    simp only [Option.some.injEq, Prod.mk.injEq] at hsome
    exact ⟨k, v, hl, hsome.1.symm, hsome.2.2.symm⟩

/-- C1 witness instantiation for the amended theorem, at the single
formatted entry of the input `K=" a "`. -/
theorem C1_emitted_value_is_trim_witness :
    ∃ k v, EnvLine.keyValue k v ∈ (parseOr ("K=\" a \"".toList)).lines ∧
      (⟨"K".toList, "K".toList, "a".toList, []⟩ : FormattedEntry).key =
        to_uppercase k ∧
      (⟨"K".toList, "K".toList, "a".toList, []⟩ : FormattedEntry).value =
        trim v :=
  C1_emitted_value_is_trim ("K=\" a \"".toList) (parseOr ("K=\" a \"".toList)) rfl
    ⟨"K".toList, "K".toList, "a".toList, []⟩ (by decide)

/-- C2 counterexample: for the input with two lines `A=1` and `A=2`,
`format_env` emits both occurrences (`A=1` then `A=2`), not only the last
value under a single key as the claim states, even though the lookup map
holds only the last value. -/
theorem C2_counterexample :
    format_env (parseOr ("A=1\nA=2".toList)) = "A=1\nA=2\n".toList ∧
      format_env (parseOr ("A=1\nA=2".toList)) ≠ "A=2\n".toList ∧
      lookupEntry ("A".toList) (parseOr ("A=1\nA=2".toList)).entries =
        some ("2".toList) := by
  refine ⟨by decide, by decide, by decide⟩

/-- C2 (amended): `format_env` emits one entry per key-value line of the
input, in particular a repeated key is emitted once per occurrence, each
occurrence with its own value and attached comment block; the lookup map is
last-write-wins, and all lines remain in the parsed line sequence. -/
theorem C2_duplicate_keys (content : Str) (env : EnvFile)
    (h : EnvFile.from_str content = .ok env) :
    ((collectFmt env.lines).entries).map
        (fun fe => (fe.key, fe.original_key, fe.value)) =
      env.lines.filterMap
        (fun l =>
          match l with
          | EnvLine.keyValue k v => some (to_uppercase k, k, trim v)
          | _ => none) ∧
      (∀ k, lookupEntry k env.entries = lastValue k env.lines) ∧
      env.lines.length = (rustLines content).length := by
  obtain ⟨hpa, hent⟩ := from_str_ok_inv h
  refine ⟨collectFmt_entries_proj env.lines, ?_, parseAll_ok_length hpa⟩
  intro k
  rw [hent, lookup_buildEntries]

/-- C2 witness instantiation for the amended theorem. -/
theorem C2_duplicate_keys_witness :
    ((collectFmt (parseOr ("A=1\nA=2".toList)).lines).entries).map
        (fun fe => (fe.key, fe.original_key, fe.value)) =
      (parseOr ("A=1\nA=2".toList)).lines.filterMap
        (fun l =>
          match l with
          | EnvLine.keyValue k v => some (to_uppercase k, k, trim v)
          | _ => none) ∧
      (∀ k, lookupEntry k (parseOr ("A=1\nA=2".toList)).entries =
        lastValue k (parseOr ("A=1\nA=2".toList)).lines) ∧
      (parseOr ("A=1\nA=2".toList)).lines.length =
        (rustLines ("A=1\nA=2".toList)).length :=
  C2_duplicate_keys ("A=1\nA=2".toList) (parseOr ("A=1\nA=2".toList)) rfl

/-! Characterization of the diff operation. -/

theorem mem_sortDiff {x : DiffEntry} {l : List DiffEntry} :
    x ∈ sortDiff l ↔ x ∈ l :=
  (List.perm_insertionSort deLE l).mem_iff

theorem sortedMap_keys_pairwise {m : List (Str × Str)} (hm : SortedMap m) :
    (m.map Prod.fst).Pairwise (· < ·) := by
  rw [List.pairwise_map]
  exact hm

theorem lookup_some_getD {k v : Str} {m : List (Str × Str)}
    (h : lookupEntry k m = some v) : (lookupEntry k m).getD [] = v := by
  rw [h]
  rfl

theorem C9_helper_removed {a b : EnvFile} {k v : Str} :
    DiffEntry.removed k v ∈ diff a b ↔
      lookupEntry k a.entries = some v ∧ lookupEntry k b.entries = none := by
  rw [diff]
  simp only [mem_sortDiff, List.mem_append]
  constructor
  · rintro ((h | h) | h)
    · obtain ⟨k1, hk1, heq⟩ := List.mem_map.mp h
      injection heq with hkey hval
      rw [← hkey]
      rw [List.mem_filter] at hk1
      obtain ⟨hmem, hnc⟩ := hk1
      have hsome : (lookupEntry k1 a.entries).isSome = true :=
        lookup_isSome_iff_mem_keys.mpr hmem
      obtain ⟨v1, hv1⟩ := Option.isSome_iff_exists.mp hsome
      have hveq : v1 = v := by
        rw [hv1] at hval
        simpa using hval
      subst hveq
      refine ⟨hv1, ?_⟩
      rw [Bool.not_eq_true'] at hnc
      cases hlb : lookupEntry k1 b.entries with
      | none => rfl
      | some w =>
        exfalso
        have hmb : k1 ∈ b.entries.map Prod.fst :=
          lookup_isSome_iff_mem_keys.mp (by rw [hlb]; rfl)
        have helem := List.elem_iff.mpr hmb
        rw [show (b.entries.map Prod.fst).contains k1 =
          (b.entries.map Prod.fst).elem k1 from rfl, helem] at hnc
        exact Bool.noConfusion hnc
    · obtain ⟨k1, hk1, heq⟩ := List.mem_map.mp h
      exact DiffEntry.noConfusion heq
    · obtain ⟨k1, hk1, heq⟩ := List.mem_filterMap.mp h
      by_cases hne : (lookupEntry k1 a.entries).getD [] ≠
          (lookupEntry k1 b.entries).getD []
      · rw [if_pos hne] at heq
        exact DiffEntry.noConfusion (Option.some.inj heq)
      · rw [if_neg hne] at heq
        exact Option.noConfusion heq
  · rintro ⟨hla, hlb⟩
    left; left
    refine List.mem_map.mpr ⟨k, ?_, ?_⟩
    · rw [List.mem_filter]
      refine ⟨lookup_isSome_iff_mem_keys.mp (by rw [hla]; rfl), ?_⟩
      rw [Bool.not_eq_true']
      rw [show (b.entries.map Prod.fst).contains k =
        (b.entries.map Prod.fst).elem k from rfl]
      rw [Bool.eq_false_iff]
      intro hc
      have hm := List.elem_iff.mp hc
      have hs := lookup_isSome_iff_mem_keys.mpr hm
      rw [hlb] at hs
      exact Bool.noConfusion hs
    · rw [lookup_some_getD hla]

theorem C9_helper_added {a b : EnvFile} {k v : Str} :
    DiffEntry.added k v ∈ diff a b ↔
      lookupEntry k b.entries = some v ∧ lookupEntry k a.entries = none := by
  rw [diff]
  simp only [mem_sortDiff, List.mem_append]
  constructor
  · rintro ((h | h) | h)
    · obtain ⟨k1, hk1, heq⟩ := List.mem_map.mp h
      exact DiffEntry.noConfusion heq
    · obtain ⟨k1, hk1, heq⟩ := List.mem_map.mp h
      injection heq with hkey hval
      rw [← hkey]
      rw [List.mem_filter] at hk1
      obtain ⟨hmem, hnc⟩ := hk1
      have hsome : (lookupEntry k1 b.entries).isSome = true :=
        lookup_isSome_iff_mem_keys.mpr hmem
      obtain ⟨v1, hv1⟩ := Option.isSome_iff_exists.mp hsome
      have hveq : v1 = v := by
        rw [hv1] at hval
        simpa using hval
      subst hveq
      refine ⟨hv1, ?_⟩
      rw [Bool.not_eq_true'] at hnc
      cases hla : lookupEntry k1 a.entries with
      | none => rfl
      | some w =>
        exfalso
        have hma : k1 ∈ a.entries.map Prod.fst :=
          lookup_isSome_iff_mem_keys.mp (by rw [hla]; rfl)
        have helem := List.elem_iff.mpr hma
        rw [show (a.entries.map Prod.fst).contains k1 =
          (a.entries.map Prod.fst).elem k1 from rfl, helem] at hnc
        exact Bool.noConfusion hnc
    · obtain ⟨k1, hk1, heq⟩ := List.mem_filterMap.mp h
      by_cases hne : (lookupEntry k1 a.entries).getD [] ≠
          (lookupEntry k1 b.entries).getD []
      · rw [if_pos hne] at heq
        exact DiffEntry.noConfusion (Option.some.inj heq)
      · rw [if_neg hne] at heq
        exact Option.noConfusion heq
  · rintro ⟨hlb, hla⟩
    left; right
    refine List.mem_map.mpr ⟨k, ?_, ?_⟩
    · rw [List.mem_filter]
      refine ⟨lookup_isSome_iff_mem_keys.mp (by rw [hlb]; rfl), ?_⟩
      rw [Bool.not_eq_true']
      rw [show (a.entries.map Prod.fst).contains k =
        (a.entries.map Prod.fst).elem k from rfl]
      rw [Bool.eq_false_iff]
      intro hc
      have hm := List.elem_iff.mp hc
      have hs := lookup_isSome_iff_mem_keys.mpr hm
      rw [hla] at hs
      exact Bool.noConfusion hs
    · rw [lookup_some_getD hlb]

theorem C9_helper_changed {a b : EnvFile} {k v w : Str} :
    DiffEntry.changed k v w ∈ diff a b ↔
      lookupEntry k a.entries = some v ∧ lookupEntry k b.entries = some w ∧
        v ≠ w := by
  rw [diff]
  simp only [mem_sortDiff, List.mem_append]
  constructor
  · rintro ((h | h) | h)
    · obtain ⟨k1, hk1, heq⟩ := List.mem_map.mp h
      exact DiffEntry.noConfusion heq
    · obtain ⟨k1, hk1, heq⟩ := List.mem_map.mp h
      exact DiffEntry.noConfusion heq
    · obtain ⟨k1, hk1, heq⟩ := List.mem_filterMap.mp h
      rw [List.mem_filter] at hk1
      obtain ⟨hmem, hc⟩ := hk1
      by_cases hne : (lookupEntry k1 a.entries).getD [] ≠
          (lookupEntry k1 b.entries).getD []
      · rw [if_pos hne] at heq
        injection Option.some.inj heq with hkey hv hw
        rw [← hkey]
        have hsa : (lookupEntry k1 a.entries).isSome = true :=
          lookup_isSome_iff_mem_keys.mpr hmem
        have hsb : (lookupEntry k1 b.entries).isSome = true := by
          apply lookup_isSome_iff_mem_keys.mpr
          apply List.elem_iff.mp
          exact hc
        obtain ⟨v1, hv1⟩ := Option.isSome_iff_exists.mp hsa
        obtain ⟨w1, hw1⟩ := Option.isSome_iff_exists.mp hsb
        rw [lookup_some_getD hv1] at hv hne
        rw [lookup_some_getD hw1] at hw hne
        subst hv
        subst hw
        exact ⟨hv1, hw1, hne⟩
      · rw [if_neg hne] at heq
        exact Option.noConfusion heq
  · rintro ⟨hla, hlb, hne⟩
    right
    refine List.mem_filterMap.mpr ⟨k, ?_, ?_⟩
    · rw [List.mem_filter]
      refine ⟨lookup_isSome_iff_mem_keys.mp (by rw [hla]; rfl), ?_⟩
      apply List.elem_iff.mpr
      exact lookup_isSome_iff_mem_keys.mp (by rw [hlb]; rfl)
    · rw [if_pos (by rw [lookup_some_getD hla, lookup_some_getD hlb]; exact hne),
        lookup_some_getD hla, lookup_some_getD hlb]

theorem strContains_iff {l : List Str} {k : Str} : l.contains k = true ↔ k ∈ l :=
  List.elem_iff

theorem diff_pairwise_ne {a b : EnvFile} (ha : SortedMap a.entries)
    (hb : SortedMap b.entries) :
    (diff a b).Pairwise (fun x y => x.key ≠ y.key) := by
  rw [diff, sortDiff]
  apply ((List.perm_insertionSort deLE _).pairwise_iff (fun h => Ne.symm h)).mpr
  have hK1 : (a.entries.map Prod.fst).Pairwise (· < ·) := sortedMap_keys_pairwise ha
  have hK2 : (b.entries.map Prod.fst).Pairwise (· < ·) := sortedMap_keys_pairwise hb
  rw [List.pairwise_append]
  refine ⟨?_, ?_, ?_⟩
  · rw [List.pairwise_append]
    refine ⟨?_, ?_, ?_⟩
    · rw [List.pairwise_map]
      exact (hK1.filter _).imp (fun h => by
        show DiffEntry.key _ ≠ DiffEntry.key _
        exact ne_of_lt h)
    · rw [List.pairwise_map]
      exact (hK2.filter _).imp (fun h => by
        show DiffEntry.key _ ≠ DiffEntry.key _
        exact ne_of_lt h)
    · intro x hx y hy
      obtain ⟨k1, hk1, hxe⟩ := List.mem_map.mp hx
      obtain ⟨k2, hk2, hye⟩ := List.mem_map.mp hy
      rw [List.mem_filter] at hk1 hk2
      rw [← hxe, ← hye]
      show k1 ≠ k2
      intro hc
      subst hc
      have := strContains_iff.mpr hk1.1
      rw [this] at hk2
      simp at hk2
  · rw [List.pairwise_filterMap]
    apply (hK1.filter _).imp
    intro k1 k2 hlt x hx y hy
    by_cases h1 : (lookupEntry k1 a.entries).getD [] ≠
        (lookupEntry k1 b.entries).getD []
    · rw [if_pos h1] at hx
      by_cases h2 : (lookupEntry k2 a.entries).getD [] ≠
          (lookupEntry k2 b.entries).getD []
      · rw [if_pos h2] at hy
        injection hx with hx
        injection hy with hy
        rw [← hx, ← hy]
        exact ne_of_lt hlt
      · rw [if_neg h2] at hy
        exact absurd hy (by simp)
    · simp only [if_neg h1] at hx
      exact absurd hx (by simp)
  · intro x hx y hy
    obtain ⟨k2, hk2, hye⟩ := List.mem_filterMap.mp hy
    rw [List.mem_filter] at hk2
    by_cases h2 : (lookupEntry k2 a.entries).getD [] ≠
        (lookupEntry k2 b.entries).getD []
    · rw [if_pos h2] at hye
      injection hye with hye
      rw [← hye]
      rcases List.mem_append.mp hx with hx | hx
      · obtain ⟨k1, hk1, hxe⟩ := List.mem_map.mp hx
        rw [List.mem_filter] at hk1
        rw [← hxe]
        show k1 ≠ k2
        intro hc
        subst hc
        have hb1 := hk1.2
        rw [hk2.2] at hb1
        exact Bool.noConfusion hb1
      · obtain ⟨k1, hk1, hxe⟩ := List.mem_map.mp hx
        rw [List.mem_filter] at hk1
        rw [← hxe]
        show k1 ≠ k2
        intro hc
        subst hc
        have hb1 := hk1.2
        rw [strContains_iff.mpr hk2.1] at hb1
        exact Bool.noConfusion hb1
    · rw [if_neg h2] at hye
      exact absurd hye (by simp)

theorem diff_sorted_strict {a b : EnvFile} (ha : SortedMap a.entries)
    (hb : SortedMap b.entries) :
    (diff a b).Pairwise (fun x y => x.key < y.key) := by
  have hle : (diff a b).Pairwise deLE := by
    rw [diff]
    exact List.sorted_insertionSort deLE _
  have hne := diff_pairwise_ne ha hb
  exact (hle.and hne).imp (fun h => lt_of_le_of_ne h.1 h.2)

/-- C9: for all parsed files `a` and `b`, `diff a b` contains `Removed k v`
exactly when `k` maps to `v` in `a` and is absent from `b`, `Added k v`
exactly when `k` maps to `v` in `b` and is absent from `a`, `Changed k v w`
exactly when `k` maps to `v` in `a` and `w` in `b` with `v ≠ w` under
byte-exact comparison (hence no entry for a key whose values agree), and the
entries are strictly ascending by key, so each such key appears exactly
once. -/
theorem C9_diff_characterization (ca cb : Str) (a b : EnvFile)
    (ha : EnvFile.from_str ca = .ok a) (hb : EnvFile.from_str cb = .ok b) :
    (∀ k v, DiffEntry.removed k v ∈ diff a b ↔
        lookupEntry k a.entries = some v ∧ lookupEntry k b.entries = none) ∧
      (∀ k v, DiffEntry.added k v ∈ diff a b ↔
        lookupEntry k b.entries = some v ∧ lookupEntry k a.entries = none) ∧
      (∀ k v w, DiffEntry.changed k v w ∈ diff a b ↔
        lookupEntry k a.entries = some v ∧ lookupEntry k b.entries = some w ∧
          v ≠ w) ∧
      (diff a b).Pairwise (fun x y => x.key < y.key) := by
  have hsa : SortedMap a.entries := by
    rw [(from_str_ok_inv ha).2]
    exact buildEntries_sorted _
  have hsb : SortedMap b.entries := by
    rw [(from_str_ok_inv hb).2]
    exact buildEntries_sorted _
  exact ⟨fun k v => C9_helper_removed, fun k v => C9_helper_added,
    fun k v w => C9_helper_changed, diff_sorted_strict hsa hsb⟩

/-- C9 witness instantiation. -/
theorem C9_diff_characterization_witness :
    (∀ k v, DiffEntry.removed k v ∈
        diff (parseOr ("A=1\nB=2\nC=3".toList)) (parseOr ("A=1\nB=9\nD=4".toList)) ↔
        lookupEntry k (parseOr ("A=1\nB=2\nC=3".toList)).entries = some v ∧
          lookupEntry k (parseOr ("A=1\nB=9\nD=4".toList)).entries = none) ∧
      (∀ k v, DiffEntry.added k v ∈
        diff (parseOr ("A=1\nB=2\nC=3".toList)) (parseOr ("A=1\nB=9\nD=4".toList)) ↔
        lookupEntry k (parseOr ("A=1\nB=9\nD=4".toList)).entries = some v ∧
          lookupEntry k (parseOr ("A=1\nB=2\nC=3".toList)).entries = none) ∧
      (∀ k v w, DiffEntry.changed k v w ∈
        diff (parseOr ("A=1\nB=2\nC=3".toList)) (parseOr ("A=1\nB=9\nD=4".toList)) ↔
        lookupEntry k (parseOr ("A=1\nB=2\nC=3".toList)).entries = some v ∧
          lookupEntry k (parseOr ("A=1\nB=9\nD=4".toList)).entries = some w ∧
            v ≠ w) ∧
      (diff (parseOr ("A=1\nB=2\nC=3".toList))
          (parseOr ("A=1\nB=9\nD=4".toList))).Pairwise
        (fun x y => x.key < y.key) :=
  C9_diff_characterization ("A=1\nB=2\nC=3".toList) ("A=1\nB=9\nD=4".toList)
    (parseOr ("A=1\nB=2\nC=3".toList)) (parseOr ("A=1\nB=9\nD=4".toList)) rfl rfl

/-! Characterization of schema validation. -/

theorem lookupVT_isSome_iff {k : Str} {fields : List (Str × ValueType)} :
    (lookupVT k fields).isSome = true ↔ k ∈ fields.map Prod.fst := by
  induction fields with
  | nil => simp [lookupVT]
  | cons p rest ih =>
    obtain ⟨k1, t1⟩ := p
    simp only [lookupVT, List.map_cons, List.mem_cons]
    by_cases hk : k = k1
    · simp [hk]
    · rw [if_neg hk, ih]
      simp [hk]

theorem lookupVT_some_iff_mem {k : Str} {t : ValueType}
    {fields : List (Str × ValueType)}
    (hs : fields.Pairwise (fun p q => p.1 < q.1)) :
    lookupVT k fields = some t ↔ (k, t) ∈ fields := by
  induction fields with
  | nil => simp [lookupVT]
  | cons p rest ih =>
    obtain ⟨k1, t1⟩ := p
    rw [List.pairwise_cons] at hs
    simp only [lookupVT]
    by_cases hk : k = k1
    · subst hk
      rw [if_pos rfl]
      constructor
      · intro h
        exact List.mem_cons.mpr (Or.inl (by
          injection h with h
          rw [h]))
      · intro h
        rcases List.mem_cons.mp h with h2 | h2
        · injection h2 with ha hb
          rw [hb]
        · exact absurd rfl (ne_of_gt (hs.1 (k, t) h2))
    · rw [if_neg hk, ih hs.2]
      constructor
      · exact fun h => List.mem_cons_of_mem _ h
      · intro h
        rcases List.mem_cons.mp h with h2 | h2
        · injection h2 with ha hb
          exact absurd ha hk
        · exact h2

theorem lookupVT_none_iff {k : Str} {fields : List (Str × ValueType)} :
    lookupVT k fields = none ↔ (lookupVT k fields).isSome = false := by
  cases h : lookupVT k fields <;> simp

/-- C10: for every schema (with the `BTreeMap` key invariant) and every
parsed env file, `validate` puts a key of both schema and file whose value
fails its declared kind exactly once in `type_errors`, a schema key absent
from the file exactly once in `missing`, and a file key absent from the
schema exactly once in `extra`; the three memberships are mutually exclusive
per key, and each sequence is strictly ascending by key (hence each key
appears at most once in each). -/
theorem C10_validate_characterization (schema : Schema) (env : EnvFile) (ca : Str)
    (henv : EnvFile.from_str ca = .ok env)
    (hs : schema.fields.Pairwise (fun p q => p.1 < q.1)) :
    (∀ k, k ∈ (validate schema env).missing ↔
        (lookupVT k schema.fields).isSome = true ∧
          lookupEntry k env.entries = none) ∧
      (∀ k t v, (k, t, v) ∈ (validate schema env).type_errors ↔
        lookupVT k schema.fields = some t ∧ lookupEntry k env.entries = some v ∧
          t.validate v = false) ∧
      (∀ k, k ∈ (validate schema env).extra ↔
        (lookupEntry k env.entries).isSome = true ∧
          lookupVT k schema.fields = none) ∧
      (∀ k, ¬ (k ∈ (validate schema env).missing ∧
        k ∈ (validate schema env).extra)) ∧
      (∀ k t v, (k, t, v) ∈ (validate schema env).type_errors →
        k ∉ (validate schema env).missing ∧ k ∉ (validate schema env).extra) ∧
      (validate schema env).missing.Pairwise (· < ·) ∧
      (validate schema env).extra.Pairwise (· < ·) ∧
      (validate schema env).type_errors.Pairwise (fun x y => x.1 < y.1) := by
  have hse : SortedMap env.entries := by
    rw [(from_str_ok_inv henv).2]
    exact buildEntries_sorted _
  have hKs : (schema.fields.map Prod.fst).Pairwise (· < ·) := by
    rw [List.pairwise_map]
    exact hs
  have hKe : (env.entries.map Prod.fst).Pairwise (· < ·) :=
    sortedMap_keys_pairwise hse
  have hmiss : ∀ k, k ∈ (validate schema env).missing ↔
      (lookupVT k schema.fields).isSome = true ∧
        lookupEntry k env.entries = none := by
    intro k
    show k ∈ List.insertionSort strLE _ ↔ _
    rw [(List.perm_insertionSort strLE _).mem_iff]
    constructor
    · intro h
      obtain ⟨f, hf, hfk⟩ := List.mem_map.mp h
      rw [List.mem_filter] at hf
      obtain ⟨hmem, hnone⟩ := hf
      subst hfk
      obtain ⟨k1, t1⟩ := f
      refine ⟨lookupVT_isSome_iff.mpr ?_, ?_⟩
      · exact List.mem_map.mpr ⟨(k1, t1), hmem, rfl⟩
      · simpa using hnone
    · rintro ⟨hsome, hnone⟩
      obtain ⟨t, ht⟩ := Option.isSome_iff_exists.mp hsome
      refine List.mem_map.mpr ⟨(k, t), ?_, rfl⟩
      rw [List.mem_filter]
      exact ⟨(lookupVT_some_iff_mem hs).mp ht, by simp [hnone]⟩
  have hte : ∀ k t v, (k, t, v) ∈ (validate schema env).type_errors ↔
      lookupVT k schema.fields = some t ∧ lookupEntry k env.entries = some v ∧
        t.validate v = false := by
    intro k t v
    show (k, t, v) ∈ List.insertionSort teLE _ ↔ _
    rw [(List.perm_insertionSort teLE _).mem_iff]
    constructor
    · intro h
      obtain ⟨f, hf, hsome⟩ := List.mem_filterMap.mp h
      obtain ⟨k1, t1⟩ := f
      cases hl : lookupEntry k1 env.entries with
      | none => rw [hl] at hsome; exact Option.noConfusion hsome
      | some v1 =>
        rw [hl] at hsome
        dsimp only at hsome
        by_cases hval : t1.validate v1 = false
        · rw [if_pos hval] at hsome
          injection hsome with hsome
          injection hsome with h1 h2
          injection h2 with h2 h3
          subst h1
          subst h2
          subst h3
          exact ⟨(lookupVT_some_iff_mem hs).mpr hf, hl, hval⟩
        · rw [if_neg hval] at hsome
          exact Option.noConfusion hsome
    · rintro ⟨hvt, hl, hval⟩
      refine List.mem_filterMap.mpr ⟨(k, t), (lookupVT_some_iff_mem hs).mp hvt, ?_⟩
      rw [hl]
      dsimp only
      rw [if_pos hval]
  have hex : ∀ k, k ∈ (validate schema env).extra ↔
      (lookupEntry k env.entries).isSome = true ∧
        lookupVT k schema.fields = none := by
    intro k
    show k ∈ List.insertionSort strLE _ ↔ _
    rw [(List.perm_insertionSort strLE _).mem_iff]
    rw [List.mem_filter]
    constructor
    · rintro ⟨hmem, hnone⟩
      exact ⟨lookup_isSome_iff_mem_keys.mpr hmem, by simpa using hnone⟩
    · rintro ⟨hsome, hnone⟩
      exact ⟨lookup_isSome_iff_mem_keys.mp hsome, by simp [hnone]⟩
  refine ⟨hmiss, hte, hex, ?_, ?_, ?_, ?_, ?_⟩
  · rintro k ⟨h1, h2⟩
    obtain ⟨-, hn⟩ := (hmiss k).mp h1
    obtain ⟨hsome, -⟩ := (hex k).mp h2
    rw [hn] at hsome
    exact Bool.noConfusion hsome
  · intro k t v h
    obtain ⟨hvt, hl, -⟩ := (hte k t v).mp h
    constructor
    · intro hm
      obtain ⟨-, hn⟩ := (hmiss k).mp hm
      rw [hn] at hl
      exact Option.noConfusion hl
    · intro hx
      obtain ⟨-, hn⟩ := (hex k).mp hx
      rw [hn] at hvt
      exact Option.noConfusion hvt
  · show ((List.insertionSort strLE _) : List Str).Pairwise _
    have hle := List.sorted_insertionSort strLE
      ((schema.fields.filter
        (fun f => (lookupEntry f.1 env.entries).isNone)).map Prod.fst)
    have hne : (List.insertionSort strLE
        ((schema.fields.filter
          (fun f => (lookupEntry f.1 env.entries).isNone)).map Prod.fst)).Pairwise
        (fun x y => x ≠ y) := by
      apply ((List.perm_insertionSort strLE _).pairwise_iff
        (fun h => Ne.symm h)).mpr
      rw [List.pairwise_map]
      exact (hs.filter _).imp (fun h => ne_of_lt h)
    exact (hle.and hne).imp (fun h => lt_of_le_of_ne h.1 h.2)
  · show ((List.insertionSort strLE _) : List Str).Pairwise _
    have hle := List.sorted_insertionSort strLE
      ((env.entries.map Prod.fst).filter
        (fun k => (lookupVT k schema.fields).isNone))
    have hne : (List.insertionSort strLE
        ((env.entries.map Prod.fst).filter
          (fun k => (lookupVT k schema.fields).isNone))).Pairwise
        (fun x y => x ≠ y) := by
      apply ((List.perm_insertionSort strLE _).pairwise_iff
        (fun h => Ne.symm h)).mpr
      exact (hKe.filter _).imp (fun h => ne_of_lt h)
    exact (hle.and hne).imp (fun h => lt_of_le_of_ne h.1 h.2)
  · show ((List.insertionSort teLE _) : List (Str × ValueType × Str)).Pairwise _
    have hle := List.sorted_insertionSort teLE
      (schema.fields.filterMap
        (fun f =>
          match lookupEntry f.1 env.entries with
          | some v => if f.2.validate v = false then some (f.1, f.2, v) else none
          | none => none))
    have hne : (List.insertionSort teLE
        (schema.fields.filterMap
          (fun f =>
            match lookupEntry f.1 env.entries with
            | some v =>
              if f.2.validate v = false then some (f.1, f.2, v) else none
            | none => none))).Pairwise (fun x y => x.1 ≠ y.1) := by
      apply ((List.perm_insertionSort teLE _).pairwise_iff
        (fun h => Ne.symm h)).mpr
      rw [List.pairwise_filterMap]
      apply hs.imp
      intro f1 f2 hlt x hx y hy
      cases hl1 : lookupEntry f1.1 env.entries with
      | none => rw [hl1] at hx; exact absurd hx (by simp)
      | some v1 =>
        rw [hl1] at hx
        dsimp only at hx
        by_cases hv1 : f1.2.validate v1 = false
        · rw [if_pos hv1] at hx
          cases hl2 : lookupEntry f2.1 env.entries with
          | none => rw [hl2] at hy; exact absurd hy (by simp)
          | some v2 =>
            rw [hl2] at hy
            dsimp only at hy
            by_cases hv2 : f2.2.validate v2 = false
            · rw [if_pos hv2] at hy
              injection hx with hx
              injection hy with hy
              rw [← hx, ← hy]
              exact ne_of_lt hlt
            · rw [if_neg hv2] at hy
              exact absurd hy (by simp)
        · rw [if_neg hv1] at hx
          exact absurd hx (by simp)
    exact (hle.and hne).imp (fun h => lt_of_le_of_ne h.1 h.2)

/-- C10 witness instantiation. -/
theorem C10_validate_characterization_witness :
    (∀ k, k ∈ (validate ⟨[("DEBUG".toList, ValueType.bool),
        ("PORT".toList, ValueType.int)]⟩ (parseOr ("PORT=x\nEXTRA=1".toList))).missing ↔
        (lookupVT k [("DEBUG".toList, ValueType.bool),
          ("PORT".toList, ValueType.int)]).isSome = true ∧
          lookupEntry k (parseOr ("PORT=x\nEXTRA=1".toList)).entries = none) ∧
      (∀ k t v, (k, t, v) ∈ (validate ⟨[("DEBUG".toList, ValueType.bool),
        ("PORT".toList, ValueType.int)]⟩
          (parseOr ("PORT=x\nEXTRA=1".toList))).type_errors ↔
        lookupVT k [("DEBUG".toList, ValueType.bool),
          ("PORT".toList, ValueType.int)] = some t ∧
          lookupEntry k (parseOr ("PORT=x\nEXTRA=1".toList)).entries = some v ∧
            t.validate v = false) ∧
      (∀ k, k ∈ (validate ⟨[("DEBUG".toList, ValueType.bool),
        ("PORT".toList, ValueType.int)]⟩ (parseOr ("PORT=x\nEXTRA=1".toList))).extra ↔
        (lookupEntry k (parseOr ("PORT=x\nEXTRA=1".toList)).entries).isSome = true ∧
          lookupVT k [("DEBUG".toList, ValueType.bool),
            ("PORT".toList, ValueType.int)] = none) ∧
      (∀ k, ¬ (k ∈ (validate ⟨[("DEBUG".toList, ValueType.bool),
        ("PORT".toList, ValueType.int)]⟩
          (parseOr ("PORT=x\nEXTRA=1".toList))).missing ∧
        k ∈ (validate ⟨[("DEBUG".toList, ValueType.bool),
          ("PORT".toList, ValueType.int)]⟩
            (parseOr ("PORT=x\nEXTRA=1".toList))).extra)) ∧
      (∀ k t v, (k, t, v) ∈ (validate ⟨[("DEBUG".toList, ValueType.bool),
        ("PORT".toList, ValueType.int)]⟩
          (parseOr ("PORT=x\nEXTRA=1".toList))).type_errors →
        k ∉ (validate ⟨[("DEBUG".toList, ValueType.bool),
          ("PORT".toList, ValueType.int)]⟩
            (parseOr ("PORT=x\nEXTRA=1".toList))).missing ∧
          k ∉ (validate ⟨[("DEBUG".toList, ValueType.bool),
            ("PORT".toList, ValueType.int)]⟩
              (parseOr ("PORT=x\nEXTRA=1".toList))).extra) ∧
      (validate ⟨[("DEBUG".toList, ValueType.bool),
        ("PORT".toList, ValueType.int)]⟩
          (parseOr ("PORT=x\nEXTRA=1".toList))).missing.Pairwise (· < ·) ∧
      (validate ⟨[("DEBUG".toList, ValueType.bool),
        ("PORT".toList, ValueType.int)]⟩
          (parseOr ("PORT=x\nEXTRA=1".toList))).extra.Pairwise (· < ·) ∧
      (validate ⟨[("DEBUG".toList, ValueType.bool),
        ("PORT".toList, ValueType.int)]⟩
          (parseOr ("PORT=x\nEXTRA=1".toList))).type_errors.Pairwise
        (fun x y => x.1 < y.1) :=
  C10_validate_characterization
    ⟨[("DEBUG".toList, ValueType.bool), ("PORT".toList, ValueType.int)]⟩
    (parseOr ("PORT=x\nEXTRA=1".toList)) ("PORT=x\nEXTRA=1".toList) rfl
    (by decide)

/-! The formatted output as a list of emitted lines. -/

/-- Concatenate lines, terminating each with a newline. -/
def joinNl (E : List Str) : Str := E.flatMap (fun t => t ++ ['\n'])

/-- The lines emitted by `format_env`, in order: header block, then for each
sorted entry its comment block and its `KEY=value` line, then the trailing
block. -/
def emittedLines (env : EnvFile) : List Str :=
  (headCollect [] env.lines).1
    ++ (sortEntries (headCollect [] env.lines).2.1).flatMap
        (fun fe => fe.preceding_comments ++ [fe.key ++ '=' :: fe.value])
    ++ (headCollect [] env.lines).2.2

theorem joinNl_append (a b : List Str) : joinNl (a ++ b) = joinNl a ++ joinNl b := by
  simp [joinNl]

theorem renderBlock_eq_joinNl (ss : List Str) : renderBlock ss = joinNl ss := rfl

theorem renderEntry_eq_joinNl (fe : FormattedEntry) :
    renderEntry fe = joinNl (fe.preceding_comments ++ [fe.key ++ '=' :: fe.value]) := by
  rw [joinNl_append, renderEntry, renderBlock_eq_joinNl]
  simp [joinNl]

theorem flatMap_renderEntry (es : List FormattedEntry) :
    es.flatMap renderEntry =
      joinNl (es.flatMap (fun fe => fe.preceding_comments ++ [fe.key ++ '=' :: fe.value])) := by
  induction es with
  | nil => rfl
  | cons fe rest ih =>
    rw [List.flatMap_cons, List.flatMap_cons, joinNl_append, ih,
      renderEntry_eq_joinNl]

theorem format_env_join (env : EnvFile) : format_env env = joinNl (emittedLines env) := by
  rw [format_env_eq, emittedLines, joinNl_append, joinNl_append,
    renderBlock_eq_joinNl, renderBlock_eq_joinNl, flatMap_renderEntry]

theorem splitNl_append_nl {e : Str} (s : Str) (he : '\n' ∉ e) :
    splitNl (e ++ '\n' :: s) = e :: splitNl s := by
  induction e with
  | nil => simp [splitNl]
  | cons c cs ih =>
    have hc : c ≠ '\n' := fun hc => he (by rw [hc]; exact List.mem_cons_self _ _)
    have hcs : '\n' ∉ cs := fun h => he (List.mem_cons_of_mem _ h)
    rw [List.cons_append, splitNl, if_neg hc, ih hcs]

theorem splitNl_joinNl (E : List Str) (hE : ∀ e ∈ E, '\n' ∉ e) :
    splitNl (joinNl E) = E ++ [[]] := by
  induction E with
  | nil => rfl
  | cons e rest ih =>
    rw [show joinNl (e :: rest) = e ++ '\n' :: joinNl rest from by simp [joinNl],
      splitNl_append_nl _ (hE e (List.mem_cons_self _ _)),
      ih (fun x hx => hE x (List.mem_cons_of_mem _ hx))]
    rfl

theorem rustLinesAux_concat_empty (E : List Str) :
    rustLinesAux (E ++ [[]]) = E.map stripCR := by
  induction E with
  | nil => rfl
  | cons e rest ih =>
    cases hr : rest ++ [[]] with
    | nil => exact absurd hr (by simp)
    | cons x xs =>
      rw [List.cons_append, hr,
        show rustLinesAux (e :: x :: xs) = stripCR e :: rustLinesAux (x :: xs)
          from rfl, ← hr, ih]
      rfl

theorem rustLines_joinNl (E : List Str) (hE : ∀ e ∈ E, '\n' ∉ e) :
    rustLines (joinNl E) = E.map stripCR := by
  rw [rustLines, splitNl_joinNl E hE, rustLinesAux_concat_empty]

/-! Invariants of parsed lines. -/

theorem trim_sublist (s : Str) : (trim s).Sublist s := by
  have h1 : (trim s).Sublist (trimLeft s) := by
    rw [trim, trimRight_eq_rdropWhile]
    exact (List.rdropWhile_prefix isWS (trimLeft s)).sublist
  exact h1.trans (List.dropWhile_sublist isWS)

theorem strip_quotes_sublist (v : Str) : (strip_quotes v).Sublist v := by
  rw [strip_quotes]
  by_cases h : 2 ≤ (trim v).length ∧
      (((trim v).head? = some '"' ∧ (trim v).getLast? = some '"') ∨
       ((trim v).head? = some '\'' ∧ (trim v).getLast? = some '\''))
  · rw [if_pos h]
    exact ((((trim v).drop 1).dropLast_sublist).trans
      (List.drop_sublist 1 (trim v))).trans (trim_sublist v)
  · rw [if_neg h]
    exact trim_sublist v

/-- Invariants that hold of every line produced by the parser. -/
def WFLine : EnvLine → Prop
  | .comment t => (trim t).head? = some '#' ∧ '\n' ∉ t
  | .blank => True
  | .keyValue k v => k ≠ [] ∧ trim k = k ∧ '=' ∉ k ∧ k.head? ≠ some '#' ∧
      '\n' ∉ k ∧ '\n' ∉ v

theorem parse_line_ok_cases {l : Str} {n : Nat} {pl : EnvLine}
    (h : parse_line l n = .ok pl) :
    (trim l = [] ∧ pl = .blank) ∨
      (trim l ≠ [] ∧ (trim l).head? = some '#' ∧ pl = .comment l) ∨
      (trim l ≠ [] ∧ (trim l).head? ≠ some '#' ∧ '=' ∈ l ∧
        trim (l.takeWhile (· ≠ '=')) ≠ [] ∧
        pl = .keyValue (trim (l.takeWhile (· ≠ '=')))
          (strip_quotes (trim ((l.dropWhile (· ≠ '=')).drop 1)))) := by
  simp only [parse_line] at h
  by_cases h1 : trim l = []
  · rw [if_pos h1] at h
    injection h with h
    exact Or.inl ⟨h1, h.symm⟩
  · rw [if_neg h1] at h
    by_cases h2 : (trim l).head? = some '#'
    · rw [if_pos h2] at h
      injection h with h
      exact Or.inr (Or.inl ⟨h1, h2, h.symm⟩)
    · rw [if_neg h2] at h
      by_cases h3 : '=' ∈ l
      · rw [if_pos h3] at h
        by_cases h4 : trim (l.takeWhile (· ≠ '=')) = []
        · rw [if_pos h4] at h
          exact Except.noConfusion h
        · rw [if_neg h4] at h
          injection h with h
          exact Or.inr (Or.inr ⟨h1, h2, h3, h4, h.symm⟩)
      · rw [if_neg h3] at h
        exact Except.noConfusion h

theorem trim_head?_eq_trimLeft {s : Str} (h : trim s ≠ []) :
    (trim s).head? = (trimLeft s).head? := by
  obtain ⟨t, ht⟩ : trim s <+: trimLeft s := by
    rw [trim, trimRight_eq_rdropWhile]
    exact List.rdropWhile_prefix isWS (trimLeft s)
  rw [← ht, List.head?_append]
  cases hh : (trim s).head? with
  | none => exact absurd (List.head?_eq_none_iff.mp hh) h
  | some c => rfl

theorem trimLeft_ne_nil_of_trim {s : Str} (h : trim s ≠ []) : trimLeft s ≠ [] := by
  intro hc
  apply h
  rw [trim, hc]
  rfl

theorem key_head_eq {l : Str} (hk : trim (l.takeWhile (· ≠ '=')) ≠ [])
    (hl : trim l ≠ []) :
    (trim (l.takeWhile (· ≠ '='))).head? = (trim l).head? := by
  have h1 : (trim (l.takeWhile (· ≠ '='))).head? =
      (trimLeft (l.takeWhile (· ≠ '='))).head? := trim_head?_eq_trimLeft hk
  have h2 : (trim l).head? = (trimLeft l).head? := trim_head?_eq_trimLeft hl
  have h3 : trimLeft (l.takeWhile (· ≠ '=')) ≠ [] := trimLeft_ne_nil_of_trim hk
  have h4 : trimLeft l =
      trimLeft (l.takeWhile (· ≠ '=')) ++ l.dropWhile (· ≠ '=') := by
    conv_lhs => rw [← List.takeWhile_append_dropWhile (fun c => decide (c ≠ '=')) l]
    rw [trimLeft, trimLeft, List.dropWhile_append]
    rw [if_neg (by
      rw [List.isEmpty_iff]
      exact h3)]
  rw [h1, h2, h4, List.head?_append]
  cases hh : (trimLeft (l.takeWhile (· ≠ '='))).head? with
  | none => exact absurd (List.head?_eq_none_iff.mp hh) h3
  | some c => rfl

theorem parse_line_ok_WF {l : Str} {n : Nat} {pl : EnvLine}
    (h : parse_line l n = .ok pl) (hl : '\n' ∉ l) : WFLine pl := by
  rcases parse_line_ok_cases h with ⟨h1, rfl⟩ | ⟨h1, h2, rfl⟩ | ⟨h1, h2, h3, h4, rfl⟩
  · trivial
  · exact ⟨h2, hl⟩
  · refine ⟨h4, trim_trim _, ?_, ?_, ?_, ?_⟩
    · intro hc
      have hmem := (trim_sublist _).subset hc
      have := List.mem_takeWhile_imp hmem
      simp at this
    · rw [key_head_eq h4 h1]
      exact h2
    · intro hc
      exact hl ((trim_sublist _).subset hc |> (List.takeWhile_sublist _).subset)
    · intro hc
      apply hl
      have := (strip_quotes_sublist _).subset hc
      have := (trim_sublist _).subset this
      have := (List.drop_sublist 1 _).subset this
      exact (List.dropWhile_sublist _).subset this

theorem parseAll_ok_mem {L : List Str} {n : Nat} {ls : List EnvLine}
    (h : parseAll L n = .ok ls) {pl : EnvLine} (hm : pl ∈ ls) :
    ∃ l ∈ L, ∃ m, parse_line l m = .ok pl := by
  induction L generalizing n ls with
  | nil =>
    simp only [parseAll] at h
    injection h with h
    subst h
    simp at hm
  | cons l rest ih =>
    simp only [parseAll] at h
    cases hpl : parse_line l n with
    | error e => rw [hpl] at h; exact Except.noConfusion h
    | ok pl1 =>
      rw [hpl] at h
      cases hpa : parseAll rest (n + 1) with
      | error e => rw [hpa] at h; exact Except.noConfusion h
      | ok pls =>
        rw [hpa] at h
        injection h with h
        subst h
        rcases List.mem_cons.mp hm with hm | hm
        · exact ⟨l, List.mem_cons_self _ _, n, by rw [hpl, hm]⟩
        · obtain ⟨l2, hl2, m, hpm⟩ := ih hpa hm
          exact ⟨l2, List.mem_cons_of_mem _ hl2, m, hpm⟩

theorem splitNl_no_nl (s : Str) : ∀ p ∈ splitNl s, '\n' ∉ p := by
  induction s with
  | nil =>
    intro p hp
    simp only [splitNl, List.mem_singleton] at hp
    subst hp
    simp
  | cons c cs ih =>
    intro p hp
    rw [splitNl] at hp
    by_cases hc : c = '\n'
    · rw [if_pos hc] at hp
      rcases List.mem_cons.mp hp with hp | hp
      · subst hp; simp
      · exact ih p hp
    · rw [if_neg hc] at hp
      cases hs : splitNl cs with
      | nil =>
        rw [hs] at hp
        simp only [List.mem_singleton] at hp
        subst hp
        intro hmem
        rcases List.mem_cons.mp hmem with hh | hh
        · exact hc hh.symm
        · simp at hh
      | cons l ls =>
        rw [hs] at hp
        rcases List.mem_cons.mp hp with hp | hp
        · subst hp
          intro hmem
          rcases List.mem_cons.mp hmem with hh | hh
          · exact hc hh.symm
          · exact ih l (by rw [hs]; exact List.mem_cons_self _ _) hh
        · exact ih p (by rw [hs]; exact List.mem_cons_of_mem _ hp)

theorem stripCR_sublist (s : Str) : (stripCR s).Sublist s := by
  rw [stripCR]
  by_cases h : s.getLast? = some '\r'
  · rw [if_pos h]
    exact s.dropLast_sublist
  · rw [if_neg h]

theorem rustLinesAux_mem {L : List Str} {p : Str} (h : p ∈ rustLinesAux L) :
    ∃ q ∈ L, p = stripCR q ∨ p = q := by
  induction L with
  | nil => simp [rustLinesAux] at h
  | cons l ls ih =>
    cases ls with
    | nil =>
      rw [rustLinesAux] at h
      by_cases hl : l = []
      · rw [if_pos hl] at h
        simp at h
      · rw [if_neg hl] at h
        simp only [List.mem_singleton] at h
        exact ⟨l, List.mem_cons_self _ _, Or.inr h⟩
    | cons x xs =>
      rw [show rustLinesAux (l :: x :: xs) = stripCR l :: rustLinesAux (x :: xs)
        from rfl] at h
      rcases List.mem_cons.mp h with h | h
      · exact ⟨l, List.mem_cons_self _ _, Or.inl h⟩
      · obtain ⟨q, hq, hor⟩ := ih h
        exact ⟨q, List.mem_cons_of_mem _ hq, hor⟩

theorem rustLines_no_nl {s : Str} {p : Str} (h : p ∈ rustLines s) : '\n' ∉ p := by
  rw [rustLines] at h
  obtain ⟨q, hq, hor⟩ := rustLinesAux_mem h
  have hqn : '\n' ∉ q := splitNl_no_nl s q hq
  rcases hor with rfl | rfl
  · exact fun hc => hqn ((stripCR_sublist q).subset hc)
  · exact hqn

theorem from_str_WF {c : Str} {e : EnvFile} (h : EnvFile.from_str c = .ok e) :
    ∀ pl ∈ e.lines, WFLine pl := by
  intro pl hm
  obtain ⟨hpa, -⟩ := from_str_ok_inv h
  obtain ⟨l, hl, m, hpm⟩ := parseAll_ok_mem hpa hm
  exact parse_line_ok_WF hpm (rustLines_no_nl hl)

/-! Re-parsing the formatted output. -/

/-- How a re-parsed line of the output classifies, as a function of the
original block text: a blank for the empty text, otherwise a comment whose
text has one trailing carriage return stripped by `str::lines`. -/
def reclassify (t : Str) : EnvLine := if t = [] then .blank else .comment (stripCR t)

/-- Classification of an already-split line of the output. -/
def reclassParsed (x : Str) : EnvLine := if x = [] then .blank else .comment x

/-- Block texts are either empty (from blanks) or comment texts. -/
def BlockText (t : Str) : Prop := t = [] ∨ ((trim t).head? = some '#' ∧ '\n' ∉ t)

theorem stripCR_eq_self {s : Str} (h : s.getLast? ≠ some '\r') : stripCR s = s := by
  rw [stripCR, if_neg h]

theorem parse_blank_line (n : Nat) : parse_line [] n = .ok .blank := rfl

theorem parse_comment_line {t : Str} (ht : (trim t).head? = some '#') (n : Nat) :
    parse_line t n = .ok (.comment t) := by
  have h1 : trim t ≠ [] := by
    intro hc
    rw [hc] at ht
    simp at ht
  simp only [parse_line]
  rw [if_neg h1, if_pos ht]

theorem trim_ne_nil_of_head {t : Str} (ht : (trim t).head? = some '#') :
    stripCR t ≠ [] := by
  intro hc
  have := stripCR_trim t
  rw [hc] at this
  rw [← this] at ht
  simp [trim, trimLeft, trimRight] at ht

theorem parse_block_line {t : Str} (ht : BlockText t) (n : Nat) :
    parse_line (stripCR t) n = .ok (reclassify t) := by
  rcases ht with rfl | ⟨ht, -⟩
  · rw [show stripCR [] = [] from rfl, reclassify, if_pos rfl]
    exact parse_blank_line n
  · have hne : t ≠ [] := by
      intro hc
      subst hc
      simp [trim, trimLeft, trimRight] at ht
    rw [reclassify, if_neg hne]
    exact parse_comment_line (by rw [stripCR_trim]; exact ht) n

theorem takeWhile_ne_append {K V : Str} (hK : '=' ∉ K) :
    (K ++ '=' :: V).takeWhile (· ≠ '=') = K := by
  induction K with
  | nil => simp [List.takeWhile_cons]
  | cons c cs ih =>
    have hc : c ≠ '=' := fun h => hK (by rw [h]; exact List.mem_cons_self _ _)
    rw [List.cons_append, List.takeWhile_cons_of_pos (by simpa using hc),
      ih (fun h => hK (List.mem_cons_of_mem _ h))]

theorem dropWhile_ne_append {K V : Str} (hK : '=' ∉ K) :
    (K ++ '=' :: V).dropWhile (· ≠ '=') = '=' :: V := by
  induction K with
  | nil => simp [List.dropWhile_cons]
  | cons c cs ih =>
    have hc : c ≠ '=' := fun h => hK (by rw [h]; exact List.mem_cons_self _ _)
    rw [List.cons_append, List.dropWhile_cons_of_pos (by simpa using hc),
      ih (fun h => hK (List.mem_cons_of_mem _ h))]

theorem kv_line_getLast_not_ws {K V : Str} (hVt : trim V = V) {c : Char}
    (h : (K ++ '=' :: V).getLast? = some c) : isWS c = false := by
  rw [List.getLast?_append_of_ne_nil K (by simp)] at h
  cases hV : V with
  | nil =>
    subst hV
    simp at h
    rw [← h]
    decide
  | cons x xs =>
    rw [hV] at h
    rw [show ('=' :: x :: xs).getLast? = (x :: xs).getLast? from rfl] at h
    rw [← hV] at h
    exact trim_getLast?_not_ws_self hVt h

theorem parse_kv_line {K V : Str} (hK0 : K ≠ []) (hKt : trim K = K)
    (hKe : '=' ∉ K) (hKh : K.head? ≠ some '#') (hVt : trim V = V) (n : Nat) :
    parse_line (K ++ '=' :: V) n = .ok (.keyValue K (strip_quotes V)) := by
  have hhead : (K ++ '=' :: V).head? = K.head? := by
    cases hK : K with
    | nil => exact absurd hK hK0
    | cons c cs => rfl
  have htrim : trim (K ++ '=' :: V) = K ++ '=' :: V := by
    apply trim_eq_self
    · intro c hc
      rw [hhead] at hc
      exact trim_head?_not_ws_self hKt hc
    · intro c hc
      exact kv_line_getLast_not_ws hVt hc
  have hne : K ++ '=' :: V ≠ [] := by simp
  have htne : trim (K ++ '=' :: V) ≠ [] := by rw [htrim]; exact hne
  simp only [parse_line]
  rw [if_neg htne, if_neg (by rw [htrim, hhead]; exact hKh),
    if_pos (show '=' ∈ K ++ '=' :: V by simp)]
  rw [takeWhile_ne_append hKe, dropWhile_ne_append hKe, hKt]
  rw [if_neg hK0]
  rw [show ('=' :: V).drop 1 = V from rfl, hVt]

theorem stripCR_kv_line {K V : Str} (hVt : trim V = V) :
    stripCR (K ++ '=' :: V) = K ++ '=' :: V := by
  apply stripCR_eq_self
  intro hc
  have := kv_line_getLast_not_ws (K := K) hVt hc
  rw [show isWS '\r' = true from by decide] at this
  exact Bool.noConfusion this

theorem parse_line_ok_indep {l : Str} {pl : EnvLine} {n m : Nat}
    (h : parse_line l n = .ok pl) : parse_line l m = .ok pl := by
  rcases parse_line_ok_cases h with ⟨h1, rfl⟩ | ⟨h1, h2, rfl⟩ | ⟨h1, h2, h3, h4, rfl⟩
  · simp only [parse_line]
    rw [if_pos h1]
  · exact parse_comment_line h2 m
  · simp only [parse_line]
    rw [if_neg h1, if_neg h2, if_pos h3, if_neg h4]

theorem parseAll_cons_ok {l : Str} {L : List Str} {pl : EnvLine} {ls : List EnvLine}
    {n : Nat} (h1 : parse_line l n = .ok pl) (h2 : parseAll L (n + 1) = .ok ls) :
    parseAll (l :: L) n = .ok (pl :: ls) := by
  simp only [parseAll]
  rw [h1, h2]

theorem parseAll_append_ok {xs ys : List Str} {ls1 ls2 : List EnvLine} {n : Nat}
    (h1 : parseAll xs n = .ok ls1) (h2 : ∀ m, parseAll ys m = .ok ls2) :
    parseAll (xs ++ ys) n = .ok (ls1 ++ ls2) := by
  induction xs generalizing n ls1 with
  | nil =>
    simp only [parseAll] at h1
    injection h1 with h1
    subst h1
    simpa using h2 n
  | cons x xs ih =>
    simp only [parseAll] at h1
    cases hx : parse_line x n with
    | error e => rw [hx] at h1; exact Except.noConfusion h1
    | ok pl =>
      rw [hx] at h1
      cases hxs : parseAll xs (n + 1) with
      | error e => rw [hxs] at h1; exact Except.noConfusion h1
      | ok pls =>
        rw [hxs] at h1
        injection h1 with h1
        subst h1
        rw [List.cons_append]
        exact parseAll_cons_ok hx (ih hxs)

theorem parseAll_of_pointwise {L : List Str} {g : Str → EnvLine}
    (h : ∀ l ∈ L, ∀ m, parse_line l m = .ok (g l)) (n : Nat) :
    parseAll L n = .ok (L.map g) := by
  induction L generalizing n with
  | nil => rfl
  | cons l ls ih =>
    exact parseAll_cons_ok (h l (List.mem_cons_self _ _) n)
      (ih (fun x hx m => h x (List.mem_cons_of_mem _ hx) m) (n + 1))

theorem parseAll_blocks {B : List Str} (hB : ∀ t ∈ B, BlockText t) (n : Nat) :
    parseAll (B.map stripCR) n = .ok (B.map reclassify) := by
  have h := parseAll_of_pointwise (L := B.map stripCR) (g := reclassParsed)
    (fun x hx m => by
      obtain ⟨t, ht, rfl⟩ := List.mem_map.mp hx
      have hbt := hB t ht
      rw [show reclassParsed (stripCR t) = reclassify t from by
        rcases hbt with rfl | ⟨hh, -⟩
        · rfl
        · rw [reclassParsed, if_neg (trim_ne_nil_of_head hh), reclassify,
            if_neg (by
              intro hc
              subst hc
              simp [trim, trimLeft, trimRight] at hh)]]
      exact parse_block_line hbt m) n
  rw [h]
  congr 1
  rw [List.map_map]
  apply List.map_congr_left
  intro t ht
  rcases hB t ht with rfl | ⟨hh, -⟩
  · rfl
  · show reclassParsed (stripCR t) = reclassify t
    rw [reclassParsed, if_neg (trim_ne_nil_of_head hh), reclassify, if_neg (by
      intro hc
      subst hc
      simp [trim, trimLeft, trimRight] at hh)]

theorem bodyCollect_texts_pred {P : Str → Prop} (hnil : P [])
    (ls : List EnvLine) (cur : List Str) (hcur : ∀ x ∈ cur, P x)
    (hls : ∀ t, EnvLine.comment t ∈ ls → P t) :
    (∀ x ∈ (bodyCollect cur ls).2, P x) ∧
      ∀ fe ∈ (bodyCollect cur ls).1, ∀ x ∈ fe.preceding_comments, P x := by
  induction ls generalizing cur with
  | nil => exact ⟨hcur, by simp [bodyCollect]⟩
  | cons l rest ih =>
    cases l with
    | comment t =>
      refine ih (cur ++ [t]) ?_ (fun x hx => hls x (List.mem_cons_of_mem _ hx))
      intro x hx
      rcases List.mem_append.mp hx with hx | hx
      · exact hcur x hx
      · rw [List.mem_singleton] at hx
        subst hx
        exact hls x (List.mem_cons_self _ _)
    | blank =>
      refine ih (cur ++ [[]]) ?_ (fun x hx => hls x (List.mem_cons_of_mem _ hx))
      intro x hx
      rcases List.mem_append.mp hx with hx | hx
      · exact hcur x hx
      · rw [List.mem_singleton] at hx
        subst hx
        exact hnil
    | keyValue k v =>
      have hrec := ih [] (by simp) (fun x hx => hls x (List.mem_cons_of_mem _ hx))
      rw [show bodyCollect cur (.keyValue k v :: rest) =
        (⟨to_uppercase k, k, trim v, cur⟩ :: (bodyCollect [] rest).1,
          (bodyCollect [] rest).2) from rfl]
      refine ⟨hrec.1, ?_⟩
      intro fe hfe x hx
      rcases List.mem_cons.mp hfe with hfe | hfe
      · subst hfe
        exact hcur x hx
      · exact hrec.2 fe hfe x hx

theorem headCollect_texts_pred {P : Str → Prop} (hnil : P [])
    (ls : List EnvLine) (hdr : List Str) (hhdr : ∀ x ∈ hdr, P x)
    (hls : ∀ t, EnvLine.comment t ∈ ls → P t) :
    (∀ x ∈ (headCollect hdr ls).1, P x) ∧
      (∀ fe ∈ (headCollect hdr ls).2.1, ∀ x ∈ fe.preceding_comments, P x) ∧
      ∀ x ∈ (headCollect hdr ls).2.2, P x := by
  induction ls generalizing hdr with
  | nil => exact ⟨hhdr, by simp [headCollect], by simp [headCollect]⟩
  | cons l rest ih =>
    cases l with
    | comment t =>
      refine ih (hdr ++ [t]) ?_ (fun x hx => hls x (List.mem_cons_of_mem _ hx))
      intro x hx
      rcases List.mem_append.mp hx with hx | hx
      · exact hhdr x hx
      · rw [List.mem_singleton] at hx
        subst hx
        exact hls x (List.mem_cons_self _ _)
    | blank =>
      refine ih (hdr ++ [[]]) ?_ (fun x hx => hls x (List.mem_cons_of_mem _ hx))
      intro x hx
      rcases List.mem_append.mp hx with hx | hx
      · exact hhdr x hx
      · rw [List.mem_singleton] at hx
        subst hx
        exact hnil
    | keyValue k v =>
      have hrec := bodyCollect_texts_pred hnil rest [] (by simp)
        (fun x hx => hls x (List.mem_cons_of_mem _ hx))
      rw [show headCollect hdr (.keyValue k v :: rest) =
        (hdr, ⟨to_uppercase k, k, trim v, []⟩ :: (bodyCollect [] rest).1,
          (bodyCollect [] rest).2) from rfl]
      refine ⟨hhdr, ?_, hrec.1⟩
      intro fe hfe x hx
      rcases List.mem_cons.mp hfe with hfe | hfe
      · subst hfe
        simp at hx
      · exact hrec.2 fe hfe x hx

/-- Invariants of the formatted entries, inherited from the parser. -/
def WFEntry (fe : FormattedEntry) : Prop :=
  fe.key ≠ [] ∧ trim fe.key = fe.key ∧ '=' ∉ fe.key ∧ fe.key.head? ≠ some '#' ∧
    '\n' ∉ fe.key ∧ trim fe.value = fe.value ∧ '\n' ∉ fe.value

theorem entries_WF {c : Str} {e : EnvFile} (h : EnvFile.from_str c = .ok e) :
    ∀ fe ∈ (headCollect [] e.lines).2.1, WFEntry fe := by
  intro fe hfe
  have hWF := from_str_WF h
  have hmem : fe ∈ (collectFmt e.lines).entries := by
    rw [collectFmt_eq]
    exact hfe
  have hproj : (fe.key, fe.original_key, fe.value) ∈
      ((collectFmt e.lines).entries).map
        (fun fe => (fe.key, fe.original_key, fe.value)) :=
    List.mem_map_of_mem _ hmem
  rw [collectFmt_entries_proj] at hproj
  obtain ⟨l, hl, hsome⟩ := List.mem_filterMap.mp hproj
  cases l with
  | comment t => simp at hsome
  | blank => simp at hsome
  | keyValue k v =>
    simp only [Option.some.injEq, Prod.mk.injEq] at hsome
    obtain ⟨hkey, -, hval⟩ := hsome
    have hwf : WFLine (.keyValue k v) := hWF _ hl
    obtain ⟨hk0, hkt, hke, hkh, hkn, hvn⟩ := hwf
    unfold WFEntry
    rw [← hkey, ← hval]
    refine ⟨?_, ?_, ?_, ?_, ?_, trim_trim v, ?_⟩
    · intro hc
      exact hk0 (List.map_eq_nil_iff.mp hc)
    · rw [trim_to_uppercase, hkt]
    · intro hc
      exact hke (to_uppercase_eq_mem (by decide) hc)
    · intro hc
      rw [to_uppercase, List.head?_map] at hc
      cases hk : k.head? with
      | none => rw [hk] at hc; simp at hc
      | some c0 =>
        rw [hk] at hc
        simp only [Option.map_some'] at hc
        injection hc with hc
        exact hkh (by rw [hk, upperChar_eq_of_not_upper (by decide) hc])
    · intro hc
      exact hkn (to_uppercase_eq_mem (by decide) hc)
    · intro hc
      exact hvn ((trim_sublist v).subset hc)

/-- The line sequence obtained by re-parsing the formatted output. -/
def reLines (env : EnvFile) : List EnvLine :=
  (headCollect [] env.lines).1.map reclassify
    ++ (sortEntries (headCollect [] env.lines).2.1).flatMap
        (fun fe => fe.preceding_comments.map reclassify
          ++ [EnvLine.keyValue fe.key (strip_quotes fe.value)])
    ++ (headCollect [] env.lines).2.2.map reclassify

theorem parseAll_entry_block {ES : List FormattedEntry} {TR : List Str}
    (hES : ∀ fe ∈ ES, WFEntry fe ∧ ∀ x ∈ fe.preceding_comments, BlockText x)
    (hTR : ∀ t ∈ TR, BlockText t) (n : Nat) :
    parseAll
        (((ES.flatMap (fun fe => fe.preceding_comments ++ [fe.key ++ '=' :: fe.value]))
          ++ TR).map stripCR) n =
      .ok (ES.flatMap (fun fe => fe.preceding_comments.map reclassify
        ++ [EnvLine.keyValue fe.key (strip_quotes fe.value)]) ++ TR.map reclassify) := by
  induction ES generalizing n with
  | nil =>
    simp only [List.flatMap_nil, List.nil_append]
    exact parseAll_blocks hTR n
  | cons fe rest ih =>
    obtain ⟨⟨hk0, hkt, hke, hkh, -, hvt, -⟩, hblocks⟩ :=
      hES fe (List.mem_cons_self _ _)
    have hih := fun m => ih (fun x hx => hES x (List.mem_cons_of_mem _ hx)) m
    have hlist : (((fe :: rest).flatMap
        (fun fe => fe.preceding_comments ++ [fe.key ++ '=' :: fe.value]) ++ TR).map
          stripCR) =
        fe.preceding_comments.map stripCR ++
          ((fe.key ++ '=' :: fe.value) ::
            ((rest.flatMap
              (fun fe => fe.preceding_comments ++ [fe.key ++ '=' :: fe.value])
                ++ TR).map stripCR)) := by
      rw [List.flatMap_cons]
      simp only [List.append_assoc, List.map_append, List.map_cons, List.map_nil]
      rw [stripCR_kv_line hvt]
      simp
    have h2 : ∀ m, parseAll ((fe.key ++ '=' :: fe.value) ::
        ((rest.flatMap
          (fun fe => fe.preceding_comments ++ [fe.key ++ '=' :: fe.value])
            ++ TR).map stripCR)) m =
        .ok (EnvLine.keyValue fe.key (strip_quotes fe.value) ::
          (rest.flatMap (fun fe => fe.preceding_comments.map reclassify
            ++ [EnvLine.keyValue fe.key (strip_quotes fe.value)])
              ++ TR.map reclassify)) := by
      intro m
      exact parseAll_cons_ok (parse_kv_line hk0 hkt hke hkh hvt m) (hih (m + 1))
    have hres := parseAll_append_ok (parseAll_blocks hblocks n) h2
    rw [hlist, hres]
    simp [List.flatMap_cons, List.append_assoc]

theorem reparse_format {c : Str} {e : EnvFile} (h : EnvFile.from_str c = .ok e) :
    EnvFile.from_str (format_env e) = .ok ⟨reLines e, buildEntries (reLines e)⟩ := by
  have hWF := from_str_WF h
  obtain ⟨hH, hBlocks, hTR⟩ := headCollect_texts_pred (P := BlockText) (Or.inl rfl)
    e.lines [] (by simp)
    (fun t ht => Or.inr (hWF _ ht))
  have hWFE := entries_WF h
  have hWFEs : ∀ fe ∈ sortEntries (headCollect [] e.lines).2.1, WFEntry fe :=
    fun fe hfe => hWFE fe (((List.perm_insertionSort feLE _).mem_iff).mp hfe)
  have hBlockss : ∀ fe ∈ sortEntries (headCollect [] e.lines).2.1,
      ∀ x ∈ fe.preceding_comments, BlockText x :=
    fun fe hfe => hBlocks fe (((List.perm_insertionSort feLE _).mem_iff).mp hfe)
  have hblockNl : ∀ t, BlockText t → '\n' ∉ t := by
    intro t ht
    rcases ht with rfl | ⟨-, hn⟩
    · simp
    · exact hn
  have hnl : ∀ l ∈ emittedLines e, '\n' ∉ l := by
    intro l hl
    rw [emittedLines] at hl
    rcases List.mem_append.mp hl with hl | hl
    · rcases List.mem_append.mp hl with hl | hl
      · exact hblockNl l (hH l hl)
      · obtain ⟨fe, hfe, hlm⟩ := List.mem_flatMap.mp hl
        rcases List.mem_append.mp hlm with hlm | hlm
        · exact hblockNl l (hBlockss fe hfe l hlm)
        · rw [List.mem_singleton] at hlm
          subst hlm
          obtain ⟨-, -, -, -, hkn, -, hvn⟩ := hWFEs fe hfe
          intro hc
          rcases List.mem_append.mp hc with hc | hc
          · exact hkn hc
          · rcases List.mem_cons.mp hc with hc | hc
            · exact absurd hc (by decide)
            · exact hvn hc
    · exact hblockNl l (hTR l hl)
  have hrl : rustLines (format_env e) = (emittedLines e).map stripCR := by
    rw [format_env_join]
    exact rustLines_joinNl _ hnl
  have hpa : parseAll ((emittedLines e).map stripCR) 1 = .ok (reLines e) := by
    rw [emittedLines, reLines, List.append_assoc, List.map_append,
      List.append_assoc]
    apply parseAll_append_ok (parseAll_blocks hH 1)
    intro m
    exact parseAll_entry_block (fun fe hfe => ⟨hWFEs fe hfe, hBlockss fe hfe⟩) hTR m
  unfold EnvFile.from_str
  rw [hrl, hpa]

/-! Round-trip of the key-value mapping. -/

/-- The keys of the key-value lines, in order. -/
def kvKeys (ls : List EnvLine) : List Str :=
  ls.filterMap
    (fun l =>
      match l with
      | EnvLine.keyValue k _ => some k
      | _ => none)

/-- Last-write fold with an explicit starting accumulator. -/
def lastValueFrom (k : Str) (acc : Option Str) (ls : List EnvLine) : Option Str :=
  ls.foldl
    (fun acc l =>
      match l with
      | .keyValue k1 v => if k1 = k then some v else acc
      | _ => acc) acc

theorem lastValue_eq_from (k : Str) (ls : List EnvLine) :
    lastValue k ls = lastValueFrom k none ls := rfl

theorem lastValueFrom_append (k : Str) (acc : Option Str) (xs ys : List EnvLine) :
    lastValueFrom k acc (xs ++ ys) = lastValueFrom k (lastValueFrom k acc xs) ys :=
  List.foldl_append _ _ _ _

theorem lastValueFrom_blocks (k : Str) (acc : Option Str) (B : List Str) :
    lastValueFrom k acc (B.map reclassify) = acc := by
  induction B generalizing acc with
  | nil => rfl
  | cons b bs ih =>
    rw [List.map_cons]
    show lastValueFrom k _ (reclassify b :: bs.map reclassify) = acc
    rw [reclassify]
    by_cases hb : b = []
    · rw [if_pos hb]
      exact ih acc
    · rw [if_neg hb]
      exact ih acc

/-- Last-write fold over formatted entries, observing the re-parsed value. -/
def entLast (k : Str) (acc : Option Str) (E : List FormattedEntry) : Option Str :=
  E.foldl
    (fun acc fe => if fe.key = k then some (strip_quotes fe.value) else acc) acc

theorem lastValueFrom_flat (k : Str) (acc : Option Str) (ES : List FormattedEntry) :
    lastValueFrom k acc
        (ES.flatMap (fun fe => fe.preceding_comments.map reclassify
          ++ [EnvLine.keyValue fe.key (strip_quotes fe.value)])) =
      entLast k acc ES := by
  induction ES generalizing acc with
  | nil => rfl
  | cons fe rest ih =>
    rw [List.flatMap_cons, lastValueFrom_append, lastValueFrom_append,
      lastValueFrom_blocks]
    rw [show lastValueFrom k acc [EnvLine.keyValue fe.key (strip_quotes fe.value)] =
      (if fe.key = k then some (strip_quotes fe.value) else acc) from rfl]
    rw [ih]
    rfl

theorem lastValue_reLines (k : Str) (env : EnvFile) :
    lastValue k (reLines env) =
      entLast k none (sortEntries (headCollect [] env.lines).2.1) := by
  rw [lastValue_eq_from, reLines, lastValueFrom_append, lastValueFrom_append,
    lastValueFrom_blocks, lastValueFrom_flat, lastValueFrom_blocks]

theorem entLast_filter (k : Str) (acc : Option Str) (E : List FormattedEntry) :
    entLast k acc E = entLast k acc (E.filter (fun fe => decide (fe.key = k))) := by
  induction E generalizing acc with
  | nil => rfl
  | cons fe rest ih =>
    by_cases hk : fe.key = k
    · rw [show (fe :: rest).filter (fun fe => decide (fe.key = k)) =
        fe :: rest.filter (fun fe => decide (fe.key = k)) from by
          rw [List.filter_cons_of_pos (by simp [hk])]]
      show entLast k (if fe.key = k then some (strip_quotes fe.value) else acc) rest =
        entLast k (if fe.key = k then some (strip_quotes fe.value) else acc) _
      exact ih _
    · rw [show (fe :: rest).filter (fun fe => decide (fe.key = k)) =
        rest.filter (fun fe => decide (fe.key = k)) from by
          rw [List.filter_cons_of_neg (by simp [hk])]]
      show entLast k (if fe.key = k then some (strip_quotes fe.value) else acc) rest = _
      rw [if_neg hk]
      exact ih _

theorem foldl_filterMap {α β γ : Type} (f : α → Option β) (g : γ → β → γ)
    (l : List α) (init : γ) :
    (l.filterMap f).foldl g init =
      l.foldl
        (fun a x =>
          match f x with
          | some b => g a b
          | none => a) init := by
  induction l generalizing init with
  | nil => rfl
  | cons x xs ih =>
    rw [List.filterMap_cons]
    cases hf : f x with
    | none => rw [List.foldl_cons, hf, ih]
    | some b => rw [List.foldl_cons, List.foldl_cons, hf, ih]

theorem lines_fold_strip (k : Str) (ls : List EnvLine)
    (hupper : ∀ k1 v, EnvLine.keyValue k1 v ∈ ls → to_uppercase k1 = k1) :
    ∀ acc : Option Str,
      ls.foldl
        (fun a l =>
          match l with
          | EnvLine.keyValue k1 v =>
            if to_uppercase k1 = k then some (strip_quotes (trim v)) else a
          | _ => a) (acc.map strip_quotes) =
      (lastValueFrom k acc ls).map strip_quotes := by
  induction ls with
  | nil => intro acc; rfl
  | cons l rest ih =>
    intro acc
    have ihr := ih (fun k1 v h => hupper k1 v (List.mem_cons_of_mem _ h))
    cases l with
    | comment t => exact ihr acc
    | blank => exact ihr acc
    | keyValue k1 v =>
      have hup : to_uppercase k1 = k1 :=
        hupper k1 v (List.mem_cons_self _ _)
      rw [List.foldl_cons]
      show rest.foldl _
        (match EnvLine.keyValue k1 v with
          | EnvLine.keyValue k1 v =>
            if to_uppercase k1 = k then some (strip_quotes (trim v))
            else acc.map strip_quotes
          | _ => acc.map strip_quotes) = _
      rw [show (match EnvLine.keyValue k1 v with
          | EnvLine.keyValue k1 v =>
            if to_uppercase k1 = k then some (strip_quotes (trim v))
            else acc.map strip_quotes
          | _ => acc.map strip_quotes) =
        (if to_uppercase k1 = k then some (strip_quotes (trim v))
          else acc.map strip_quotes) from rfl]
      rw [hup]
      by_cases hk : k1 = k
      · rw [if_pos hk]
        rw [show some (strip_quotes (trim v)) = (some v).map strip_quotes from by
          rw [Option.map_some']
          rw [show strip_quotes (trim v) = strip_quotes v from by
            rw [strip_quotes, strip_quotes, trim_trim]]]
        rw [ihr (some v)]
        rw [show lastValueFrom k acc (EnvLine.keyValue k1 v :: rest) =
          lastValueFrom k (some v) rest from by
            show lastValueFrom k (if k1 = k then some v else acc) rest = _
            rw [if_pos hk]]
      · rw [if_neg hk]
        rw [ihr acc]
        rw [show lastValueFrom k acc (EnvLine.keyValue k1 v :: rest) =
          lastValueFrom k acc rest from by
            show lastValueFrom k (if k1 = k then some v else acc) rest = _
            rw [if_neg hk]]

theorem entLast_proj (k : Str) (acc : Option Str) (E : List FormattedEntry) :
    entLast k acc E =
      (E.map (fun fe => (fe.key, fe.original_key, fe.value))).foldl
        (fun a t => if t.1 = k then some (strip_quotes t.2.2) else a) acc := by
  unfold entLast
  rw [List.foldl_map]

theorem foldl_filterMap_kv (k : Str) (ls : List EnvLine) (init : Option Str) :
    (ls.filterMap
        (fun l =>
          match l with
          | EnvLine.keyValue k1 v => some (to_uppercase k1, k1, trim v)
          | _ => none)).foldl
        (fun a t => if t.1 = k then some (strip_quotes t.2.2) else a) init =
      ls.foldl
        (fun a l =>
          match l with
          | EnvLine.keyValue k1 v =>
            if to_uppercase k1 = k then some (strip_quotes (trim v)) else a
          | _ => a) init := by
  induction ls generalizing init with
  | nil => rfl
  | cons l rest ih =>
    cases l with
    | comment t => exact ih init
    | blank => exact ih init
    | keyValue k1 v =>
      exact ih (if to_uppercase k1 = k then some (strip_quotes (trim v)) else init)

theorem lastValue_reLines_strip (k : Str) (e : EnvFile)
    (hupper : ∀ k1 v, EnvLine.keyValue k1 v ∈ e.lines → to_uppercase k1 = k1) :
    lastValue k (reLines e) = (lastValue k e.lines).map strip_quotes := by
  rw [lastValue_reLines, entLast_filter]
  rw [show sortEntries (headCollect [] e.lines).2.1 =
    List.insertionSort feLE (headCollect [] e.lines).2.1 from rfl]
  rw [filter_insertionSort feLE (fun fe => decide (fe.key = k))
    (fun x y hx hy => by
      show x.key ≤ y.key
      rw [of_decide_eq_true hx, of_decide_eq_true hy])]
  rw [← entLast_filter, entLast_proj]
  rw [show (headCollect [] e.lines).2.1 = (collectFmt e.lines).entries from by
    rw [collectFmt_eq]]
  rw [collectFmt_entries_proj, foldl_filterMap_kv, lastValue_eq_from]
  exact lines_fold_strip k e.lines hupper none

/-- C3: for canonical input (uppercase keys, sorted) the round trip
parse-format-reparse preserves the key-value mapping — provided additionally
that every value reachable through the lookup map is a fixed point of quote
stripping; without that proviso the claim fails (see the counterexample). -/
theorem C3_roundtrip (c : Str) (e : EnvFile)
    (h : EnvFile.from_str c = Except.ok e)
    (hupper : ∀ k v, EnvLine.keyValue k v ∈ e.lines → to_uppercase k = k)
    (hsorted : List.Pairwise (· ≤ ·) (kvKeys e.lines))
    (hstrip : ∀ k v, lookupEntry k e.entries = some v → strip_quotes v = v) :
    ∃ e2, EnvFile.from_str (format_env e) = Except.ok e2 ∧
      e2.entries = e.entries := by
  refine ⟨⟨reLines e, buildEntries (reLines e)⟩, reparse_format h, ?_⟩
  show buildEntries (reLines e) = e.entries
  obtain ⟨-, hent⟩ := from_str_ok_inv h
  rw [hent]
  apply sortedMap_ext (buildEntries_sorted _) (buildEntries_sorted _)
  intro k
  rw [lookup_buildEntries, lookup_buildEntries,
    lastValue_reLines_strip k e hupper]
  cases hv : lastValue k e.lines with
  | none => rfl
  | some v =>
    rw [Option.map_some']
    have hlk : lookupEntry k e.entries = some v := by
      rw [hent, lookup_buildEntries]; exact hv
    rw [hstrip k v hlk]

/-- C3 counterexample: the input `K=" a "` is canonical — its single key `K`
is uppercase and trivially sorted — yet the round trip changes the mapping:
parsing stores `K ↦ " a "` (quote stripping keeps the inner spaces), while
formatting emits `K=a` so re-parsing yields `K ↦ a`. -/
theorem C3_counterexample :
    to_uppercase ("K".toList) = "K".toList ∧
    List.Pairwise (· ≤ ·) (kvKeys (parseOr ("K=\" a \"".toList)).lines) ∧
    lookupEntry ("K".toList) (parseOr ("K=\" a \"".toList)).entries =
      some (" a ".toList) ∧
    lookupEntry ("K".toList)
        (parseOr (format_env (parseOr ("K=\" a \"".toList)))).entries =
      some ("a".toList) ∧
    (" a ".toList : Str) ≠ "a".toList := by
  decide

theorem C3_roundtrip_witness :
    ∃ e2, EnvFile.from_str (format_env (parseOr ("A=1\nB=2".toList))) =
        Except.ok e2 ∧
      e2.entries = (parseOr ("A=1\nB=2".toList)).entries := by
  apply C3_roundtrip ("A=1\nB=2".toList) (parseOr ("A=1\nB=2".toList)) rfl
  · intro k v hkv
    rw [show (parseOr ("A=1\nB=2".toList)).lines =
      [EnvLine.keyValue ("A".toList) ("1".toList),
       EnvLine.keyValue ("B".toList) ("2".toList)] from rfl] at hkv
    simp only [List.mem_cons, List.not_mem_nil, or_false] at hkv
    rcases hkv with hkv | hkv
    · injection hkv with h1 h2
      subst h1
      decide
    · injection hkv with h1 h2
      subst h1
      decide
  · decide
  · intro k v hv
    rw [show (parseOr ("A=1\nB=2".toList)).entries =
      [("A".toList, "1".toList), ("B".toList, "2".toList)] from rfl] at hv
    simp only [lookupEntry] at hv
    split_ifs at hv
    · injection hv with hv
      subst hv
      decide
    · injection hv with hv
      subst hv
      decide

/-! Formatting the re-parsed output again: the second formatting pass. -/

/-- The formatted entry the second pass builds from a first-pass entry: the
key is uppercased again, the value (already stripped of quotes by the
re-parse) is trimmed again, and the entry absorbs the pending comment block
`cur` in front of its own block. -/
def reEntry (cur : List Str) (fe : FormattedEntry) : FormattedEntry :=
  ⟨to_uppercase fe.key, fe.key, trim (strip_quotes fe.value),
    cur ++ fe.preceding_comments⟩

theorem headCollect_reclassify (B : List Str) (hB : ∀ t ∈ B, stripCR t = t)
    (hdr : List Str) (rest : List EnvLine) :
    headCollect hdr (B.map reclassify ++ rest) = headCollect (hdr ++ B) rest := by
  induction B generalizing hdr with
  | nil => rw [List.map_nil, List.nil_append, List.append_nil]
  | cons t bs ih =>
    rw [List.map_cons, List.cons_append]
    have hts := hB t (List.mem_cons_self _ _)
    have ihb := ih (fun x hx => hB x (List.mem_cons_of_mem _ hx))
    by_cases ht : t = []
    · rw [show reclassify t = EnvLine.blank from by rw [reclassify, if_pos ht]]
      show headCollect (hdr ++ [[]]) (bs.map reclassify ++ rest) = _
      rw [ihb (hdr ++ [[]]), ← ht, List.append_assoc]
      rfl
    · rw [show reclassify t = EnvLine.comment t from by
        rw [reclassify, if_neg ht, hts]]
      show headCollect (hdr ++ [t]) (bs.map reclassify ++ rest) = _
      rw [ihb (hdr ++ [t]), List.append_assoc]
      rfl

theorem bodyCollect_reclassify (B : List Str) (hB : ∀ t ∈ B, stripCR t = t)
    (cur : List Str) (rest : List EnvLine) :
    bodyCollect cur (B.map reclassify ++ rest) = bodyCollect (cur ++ B) rest := by
  induction B generalizing cur with
  | nil => rw [List.map_nil, List.nil_append, List.append_nil]
  | cons t bs ih =>
    rw [List.map_cons, List.cons_append]
    have hts := hB t (List.mem_cons_self _ _)
    have ihb := ih (fun x hx => hB x (List.mem_cons_of_mem _ hx))
    by_cases ht : t = []
    · rw [show reclassify t = EnvLine.blank from by rw [reclassify, if_pos ht]]
      show bodyCollect (cur ++ [[]]) (bs.map reclassify ++ rest) = _
      rw [ihb (cur ++ [[]]), ← ht, List.append_assoc]
      rfl
    · rw [show reclassify t = EnvLine.comment t from by
        rw [reclassify, if_neg ht, hts]]
      show bodyCollect (cur ++ [t]) (bs.map reclassify ++ rest) = _
      rw [ihb (cur ++ [t]), List.append_assoc]
      rfl

theorem bodyCollect_flat (TR : List Str) (hTR : ∀ t ∈ TR, stripCR t = t) :
    ∀ (ES : List FormattedEntry),
      (∀ fe ∈ ES, ∀ t ∈ fe.preceding_comments, stripCR t = t) →
      ∀ cur : List Str,
      bodyCollect cur
          (ES.flatMap (fun fe => fe.preceding_comments.map reclassify
            ++ [EnvLine.keyValue fe.key (strip_quotes fe.value)])
            ++ TR.map reclassify) =
        match ES with
        | [] => (([] : List FormattedEntry), cur ++ TR)
        | fe :: rest => (reEntry cur fe :: rest.map (reEntry []), TR) := by
  intro ES
  induction ES with
  | nil =>
    intro _ cur
    have h1 := bodyCollect_reclassify TR hTR cur []
    rw [List.append_nil] at h1
    rw [show (([] : List FormattedEntry).flatMap
        (fun fe => fe.preceding_comments.map reclassify
          ++ [EnvLine.keyValue fe.key (strip_quotes fe.value)])
        ++ TR.map reclassify) = TR.map reclassify from by
      rw [List.flatMap_nil, List.nil_append]]
    rw [h1]
    rfl
  | cons fe rest ih =>
    intro hES cur
    rw [List.flatMap_cons, List.append_assoc, List.append_assoc]
    rw [bodyCollect_reclassify fe.preceding_comments
      (hES fe (List.mem_cons_self _ _)) cur]
    show (reEntry cur fe ::
        (bodyCollect []
          (rest.flatMap (fun fe => fe.preceding_comments.map reclassify
            ++ [EnvLine.keyValue fe.key (strip_quotes fe.value)])
            ++ TR.map reclassify)).1,
      (bodyCollect []
          (rest.flatMap (fun fe => fe.preceding_comments.map reclassify
            ++ [EnvLine.keyValue fe.key (strip_quotes fe.value)])
            ++ TR.map reclassify)).2) = _
    rw [ih (fun x hx => hES x (List.mem_cons_of_mem _ hx)) []]
    cases rest with
    | nil => rfl
    | cons fe2 rs => rfl

theorem headCollect_flat (TR : List Str) (hTR : ∀ t ∈ TR, stripCR t = t)
    (ES : List FormattedEntry)
    (hES : ∀ fe ∈ ES, ∀ t ∈ fe.preceding_comments, stripCR t = t)
    (hdr : List Str) :
    headCollect hdr
        (ES.flatMap (fun fe => fe.preceding_comments.map reclassify
          ++ [EnvLine.keyValue fe.key (strip_quotes fe.value)])
          ++ TR.map reclassify) =
      match ES with
      | [] => (hdr ++ TR, ([] : List FormattedEntry), ([] : List Str))
      | fe :: rest =>
        (hdr ++ fe.preceding_comments,
          (⟨to_uppercase fe.key, fe.key, trim (strip_quotes fe.value), []⟩ :
            FormattedEntry) :: rest.map (reEntry []),
          TR) := by
  cases ES with
  | nil =>
    have h1 := headCollect_reclassify TR hTR hdr []
    rw [List.append_nil] at h1
    rw [show (([] : List FormattedEntry).flatMap
        (fun fe => fe.preceding_comments.map reclassify
          ++ [EnvLine.keyValue fe.key (strip_quotes fe.value)])
        ++ TR.map reclassify) = TR.map reclassify from by
      rw [List.flatMap_nil, List.nil_append]]
    rw [h1]
    rfl
  | cons fe rest =>
    rw [List.flatMap_cons, List.append_assoc, List.append_assoc]
    rw [headCollect_reclassify fe.preceding_comments
      (hES fe (List.mem_cons_self _ _)) hdr]
    show (hdr ++ fe.preceding_comments,
      (⟨to_uppercase fe.key, fe.key, trim (strip_quotes fe.value), []⟩ :
        FormattedEntry) ::
        (bodyCollect []
          (rest.flatMap (fun fe => fe.preceding_comments.map reclassify
            ++ [EnvLine.keyValue fe.key (strip_quotes fe.value)])
            ++ TR.map reclassify)).1,
      (bodyCollect []
          (rest.flatMap (fun fe => fe.preceding_comments.map reclassify
            ++ [EnvLine.keyValue fe.key (strip_quotes fe.value)])
            ++ TR.map reclassify)).2) = _
    rw [bodyCollect_flat TR hTR rest
      (fun x hx => hES x (List.mem_cons_of_mem _ hx)) []]
    cases rest with
    | nil => rfl
    | cons fe2 rs => rfl

theorem strip_quotes_trim (v : Str) : strip_quotes (trim v) = strip_quotes v := by
  rw [strip_quotes, strip_quotes, trim_trim]

theorem joinNl_nil : joinNl [] = [] := rfl

theorem entries_key_upper {c : Str} {e : EnvFile}
    (h : EnvFile.from_str c = Except.ok e) :
    ∀ fe ∈ (headCollect [] e.lines).2.1, to_uppercase fe.key = fe.key := by
  intro fe hfe
  have hmem : fe ∈ (collectFmt e.lines).entries := by
    rw [collectFmt_eq]
    exact hfe
  have hproj : (fe.key, fe.original_key, fe.value) ∈
      ((collectFmt e.lines).entries).map
        (fun fe => (fe.key, fe.original_key, fe.value)) :=
    List.mem_map_of_mem _ hmem
  rw [collectFmt_entries_proj] at hproj
  obtain ⟨l, hl, hsome⟩ := List.mem_filterMap.mp hproj
  cases l with
  | comment t => simp at hsome
  | blank => simp at hsome
  | keyValue k v =>
    simp only [Option.some.injEq, Prod.mk.injEq] at hsome
    obtain ⟨hkey, -, -⟩ := hsome
    rw [← hkey, to_uppercase_to_uppercase]

theorem entries_value {c : Str} {e : EnvFile}
    (h : EnvFile.from_str c = Except.ok e)
    (hqv : ∀ k v, EnvLine.keyValue k v ∈ e.lines →
      trim (strip_quotes v) = trim v) :
    ∀ fe ∈ (headCollect [] e.lines).2.1,
      trim (strip_quotes fe.value) = fe.value := by
  intro fe hfe
  have hmem : fe ∈ (collectFmt e.lines).entries := by
    rw [collectFmt_eq]
    exact hfe
  have hproj : (fe.key, fe.original_key, fe.value) ∈
      ((collectFmt e.lines).entries).map
        (fun fe => (fe.key, fe.original_key, fe.value)) :=
    List.mem_map_of_mem _ hmem
  rw [collectFmt_entries_proj] at hproj
  obtain ⟨l, hl, hsome⟩ := List.mem_filterMap.mp hproj
  cases l with
  | comment t => simp at hsome
  | blank => simp at hsome
  | keyValue k v =>
    simp only [Option.some.injEq, Prod.mk.injEq] at hsome
    obtain ⟨-, -, hv⟩ := hsome
    rw [← hv, strip_quotes_trim, hqv k v hl]

theorem renderEntry_reEntry (fe : FormattedEntry)
    (hk : to_uppercase fe.key = fe.key)
    (hv : trim (strip_quotes fe.value) = fe.value) :
    renderEntry (reEntry [] fe) = renderEntry fe := by
  unfold renderEntry reEntry
  dsimp only
  rw [hk, hv, List.nil_append]

theorem flatMap_renderEntry_reEntry (rest : List FormattedEntry)
    (hk : ∀ fe ∈ rest, to_uppercase fe.key = fe.key)
    (hv : ∀ fe ∈ rest, trim (strip_quotes fe.value) = fe.value) :
    (rest.map (reEntry [])).flatMap renderEntry = rest.flatMap renderEntry := by
  induction rest with
  | nil => rfl
  | cons fe rs ih =>
    rw [List.map_cons, List.flatMap_cons, List.flatMap_cons,
      renderEntry_reEntry fe (hk fe (List.mem_cons_self _ _))
        (hv fe (List.mem_cons_self _ _)),
      ih (fun x hx => hk x (List.mem_cons_of_mem _ hx))
        (fun x hx => hv x (List.mem_cons_of_mem _ hx))]

/-- C4: format_env is idempotent on its own output — provided each line
value is unchanged (up to trimming) by a second quote stripping and no
comment line ends in a carriage return; without those provisos the claim
fails (see the counterexample). -/
theorem C4_idempotent (c : Str) (e : EnvFile)
    (h : EnvFile.from_str c = Except.ok e)
    (hcr : ∀ t, EnvLine.comment t ∈ e.lines → stripCR t = t)
    (hqv : ∀ k v, EnvLine.keyValue k v ∈ e.lines →
      trim (strip_quotes v) = trim v) :
    ∃ e2, EnvFile.from_str (format_env e) = Except.ok e2 ∧
      format_env e2 = format_env e := by
  refine ⟨⟨reLines e, buildEntries (reLines e)⟩, reparse_format h, ?_⟩
  obtain ⟨hH, hB, hTR⟩ := headCollect_texts_pred (P := fun t => stripCR t = t)
    (by decide) e.lines [] (by simp) (fun t ht => hcr t ht)
  have hBs : ∀ fe ∈ sortEntries (headCollect [] e.lines).2.1,
      ∀ t ∈ fe.preceding_comments, stripCR t = t :=
    fun fe hfe => hB fe (((List.perm_insertionSort feLE _).mem_iff).mp hfe)
  have hks : ∀ fe ∈ sortEntries (headCollect [] e.lines).2.1,
      to_uppercase fe.key = fe.key :=
    fun fe hfe =>
      entries_key_upper h fe (((List.perm_insertionSort feLE _).mem_iff).mp hfe)
  have hvs : ∀ fe ∈ sortEntries (headCollect [] e.lines).2.1,
      trim (strip_quotes fe.value) = fe.value :=
    fun fe hfe =>
      entries_value h hqv fe (((List.perm_insertionSort feLE _).mem_iff).mp hfe)
  have hsorted1 : List.Sorted feLE (sortEntries (headCollect [] e.lines).2.1) :=
    List.sorted_insertionSort feLE _
  cases hcase : sortEntries (headCollect [] e.lines).2.1 with
  | nil =>
    have hhc : headCollect [] (reLines e) =
        ((headCollect [] e.lines).1 ++ (headCollect [] e.lines).2.2,
          ([] : List FormattedEntry), ([] : List Str)) := by
      rw [reLines, hcase, List.flatMap_nil, List.append_nil]
      rw [headCollect_reclassify (headCollect [] e.lines).1 hH []]
      rw [List.nil_append]
      have h1 := headCollect_reclassify (headCollect [] e.lines).2.2 hTR
        ((headCollect [] e.lines).1) []
      rw [List.append_nil] at h1
      rw [h1]
      rfl
    rw [format_env_eq ⟨reLines e, buildEntries (reLines e)⟩, format_env_eq e]
    rw [show (⟨reLines e, buildEntries (reLines e)⟩ : EnvFile).lines = reLines e
      from rfl]
    rw [hhc, hcase]
    rw [show sortEntries ([] : List FormattedEntry) = ([] : List FormattedEntry)
      from rfl]
    simp [renderBlock_eq_joinNl, joinNl_append, joinNl_nil]
  | cons fe rest =>
    have hmemfe : fe ∈ sortEntries (headCollect [] e.lines).2.1 := by
      rw [hcase]
      exact List.mem_cons_self _ _
    have hmemr : ∀ x ∈ rest, x ∈ sortEntries (headCollect [] e.lines).2.1 := by
      intro x hx
      rw [hcase]
      exact List.mem_cons_of_mem _ hx
    have hBs2 : ∀ x ∈ fe :: rest, ∀ t ∈ x.preceding_comments, stripCR t = t := by
      intro x hx
      refine hBs x ?_
      rw [hcase]
      exact hx
    have hhc : headCollect [] (reLines e) =
        ((headCollect [] e.lines).1 ++ fe.preceding_comments,
          (⟨to_uppercase fe.key, fe.key, trim (strip_quotes fe.value), []⟩ :
            FormattedEntry) :: rest.map (reEntry []),
          (headCollect [] e.lines).2.2) := by
      rw [reLines, hcase, List.append_assoc]
      rw [headCollect_reclassify (headCollect [] e.lines).1 hH []]
      rw [List.nil_append]
      rw [headCollect_flat (headCollect [] e.lines).2.2 hTR (fe :: rest) hBs2
        (headCollect [] e.lines).1]
    rw [format_env_eq ⟨reLines e, buildEntries (reLines e)⟩, format_env_eq e]
    rw [show (⟨reLines e, buildEntries (reLines e)⟩ : EnvFile).lines = reLines e
      from rfl]
    rw [hhc, hcase]
    rw [hcase] at hsorted1
    have hsorted2 : List.Sorted feLE
        ((⟨to_uppercase fe.key, fe.key, trim (strip_quotes fe.value), []⟩ :
          FormattedEntry) :: rest.map (reEntry [])) := by
      rw [List.sorted_cons]
      constructor
      · intro b hb
        obtain ⟨b2, hb2, hbe⟩ := List.mem_map.mp hb
        rw [← hbe]
        show to_uppercase fe.key ≤ to_uppercase b2.key
        rw [hks fe hmemfe, hks b2 (hmemr b2 hb2)]
        exact List.rel_of_sorted_cons hsorted1 b2 hb2
      · show List.Pairwise feLE (rest.map (reEntry []))
        rw [List.pairwise_map]
        refine List.Pairwise.imp_of_mem ?_ (List.sorted_cons.mp hsorted1).2
        intro a b ha hb hab
        show to_uppercase a.key ≤ to_uppercase b.key
        rw [hks a (hmemr a ha), hks b (hmemr b hb)]
        exact hab
    rw [show sortEntries
        ((⟨to_uppercase fe.key, fe.key, trim (strip_quotes fe.value), []⟩ :
          FormattedEntry) :: rest.map (reEntry [])) =
        (⟨to_uppercase fe.key, fe.key, trim (strip_quotes fe.value), []⟩ :
          FormattedEntry) :: rest.map (reEntry [])
      from List.Sorted.insertionSort_eq hsorted2]
    rw [List.flatMap_cons, List.flatMap_cons]
    rw [flatMap_renderEntry_reEntry rest (fun x hx => hks x (hmemr x hx))
      (fun x hx => hvs x (hmemr x hx))]
    have hre : renderEntry
        (⟨to_uppercase fe.key, fe.key, trim (strip_quotes fe.value), []⟩ :
          FormattedEntry) = fe.key ++ '=' :: fe.value ++ ['\n'] := by
      unfold renderEntry
      dsimp only
      rw [hks fe hmemfe, hvs fe hmemfe]
      rfl
    rw [hre]
    rw [show renderEntry fe =
      renderBlock fe.preceding_comments ++ fe.key ++ '=' :: fe.value ++ ['\n']
      from rfl]
    simp only [renderBlock_eq_joinNl, joinNl_append, List.append_assoc]

/-- C4 counterexample: formatting is not idempotent on the parse of
`K=""a""`: the first pass emits `K="a"`, but re-parsing strips the quotes
again, so the second pass emits `K=a`, a different string. -/
theorem C4_counterexample :
    format_env (parseOr ("K=\"\"a\"\"".toList)) = "K=\"a\"\n".toList ∧
    format_env (parseOr (format_env (parseOr ("K=\"\"a\"\"".toList)))) =
      "K=a\n".toList ∧
    ("K=\"a\"\n".toList : Str) ≠ "K=a\n".toList := by
  decide

theorem C4_idempotent_witness :
    ∃ e2, EnvFile.from_str (format_env (parseOr ("# c\nA=1".toList))) =
        Except.ok e2 ∧
      format_env e2 = format_env (parseOr ("# c\nA=1".toList)) := by
  apply C4_idempotent ("# c\nA=1".toList) (parseOr ("# c\nA=1".toList)) rfl
  · intro t ht
    rw [show (parseOr ("# c\nA=1".toList)).lines =
      [EnvLine.comment ("# c".toList),
       EnvLine.keyValue ("A".toList) ("1".toList)] from rfl] at ht
    simp only [List.mem_cons, List.not_mem_nil, or_false] at ht
    rcases ht with ht | ht
    · injection ht with h1
      subst h1
      decide
    · exact EnvLine.noConfusion ht
  · intro k v hkv
    rw [show (parseOr ("# c\nA=1".toList)).lines =
      [EnvLine.comment ("# c".toList),
       EnvLine.keyValue ("A".toList) ("1".toList)] from rfl] at hkv
    simp only [List.mem_cons, List.not_mem_nil, or_false] at hkv
    rcases hkv with hkv | hkv
    · exact EnvLine.noConfusion hkv
    · injection hkv with h1 h2
      subst h1 h2
      decide

end Envcraft
